import Mathlib

/-!
Verification development for the NER decoding/aggregation and zero-shot
scoring core of the `nlp-service` (files `onnx_inference.py` and `main.py`).

Texts are modelled as `List Char`, character offsets as `ℤ` (Python uses
`-1` as a sentinel for a failed substring search), and logit scores as `ℚ`.
The external tokenizer and ONNX model are out of scope (the spec treats
them as external collaborators); they are abstracted as a function
`tokensFor : Str → List Token` giving, for a chunk's text, the token
sequence together with each token's attention-mask bit, special flag,
surface text, predicted BIO label (`id2label` of the arg-max logit index)
and the logit value at that index.  Everything downstream of that point —
the BIO state machine, offset resolution, aggregation, chunking, grouping
and the zero-shot result assembly — is embedded directly from the source.
-/

set_option maxRecDepth 40000

abbrev Str := List Char

/-- Convert a Lean string literal to the `List Char` representation. -/
def strL (s : String) : Str := s.toList

/-- Python `str.lower()` restricted to the ASCII case mapping used here. -/
def toLowerStr (s : Str) : Str := s.map Char.toLower

/-- Whether `pat` occurs at the very beginning of `s`. -/
def leadMatch : Str → Str → Bool
  | [], _ => true
  | _ :: _, [] => false
  | p :: ps, c :: cs => p = c && leadMatch ps cs

/-- Python `str.find` (first occurrence, scanning from index `acc`):
returns the index of the first occurrence of `pat` in `s`, or `none`. -/
def findFrom (pat : Str) (s : Str) (acc : ℕ) : Option ℕ :=
  if leadMatch pat s then some acc
  else
    match s with
    | [] => none
    | _ :: rest => findFrom pat rest (acc + 1)

/-- First index of `pat` in `s` (Python `s.find(pat)` with `none` for `-1`). -/
def findSub (pat : Str) (s : Str) : Option ℕ := findFrom pat s 0

/-- Embedding of `ONNXNERModel._get_word_offsets` (onnx_inference.py,
lines 183-190): case-insensitive first-match substring search; on a miss
the offsets are `(-1, -1)`. -/
def getWordOffsets (text tokenText : Str) : ℤ × ℤ :=
  match findSub (toLowerStr tokenText) (toLowerStr text) with
  | some i => ((i : ℤ), (i : ℤ) + tokenText.length)
  | none => (-1, -1)

/-- One tokenizer/model output row, as consumed by
`ONNXNERModel._process_ner_outputs`: the attention-mask bit, whether the
token id is in `tokenizer.all_special_ids`, the surface text produced by
`convert_ids_to_tokens`, the label `id2label[argmax of the logit row]`,
and the logit value at that arg-max index. -/
structure Token where
  mask : Bool
  special : Bool
  text : Str
  label : Str
  score : ℚ
deriving DecidableEq

/-- The `current_entity` / `entities` dictionaries of
`_process_ner_outputs` (keys `entity_group`, `word`, `score`, `start`,
`end`; `end` is a Lean keyword so the field is called `endPos`). -/
structure EntityFragment where
  entity_group : Str
  word : Str
  score : ℚ
  start : ℤ
  endPos : ℤ
deriving DecidableEq

/-- Sub-word detokenization in `_process_ner_outputs` (lines 129-131):
a leading `##` marks a sub-word continuation and is stripped. -/
def stripSubword (t : Str) : Str := if t.take 2 = strL "##" then t.drop 2 else t

/-- Embedding of the token loop of `ONNXNERModel._process_ner_outputs`
(lines 111-175): the BIO state machine carrying `current_entity`.
Padding (`mask == 0`) and special tokens are skipped; `B-` closes any
open fragment and opens a new one; `I-` with a matching type appends the
token text, moves `end`, and pairwise-averages the score; any other
label closes an open fragment. -/
def processToks (text : Str) : List Token → Option EntityFragment → List EntityFragment
  | [], none => []
  | [], some cur => [cur]
  | t :: ts, cur =>
    if t.mask = false then processToks text ts cur
    else if t.special then processToks text ts cur
    else
      let tokenText := stripSubword t.text
      if t.label.take 2 = strL "B-" then
        let offs := getWordOffsets text tokenText
        let newCur : EntityFragment :=
          { entity_group := t.label.drop 2, word := tokenText, score := t.score,
            start := offs.1, endPos := offs.2 }
        match cur with
        | some c => c :: processToks text ts (some newCur)
        | none => processToks text ts (some newCur)
      else if t.label.take 2 = strL "I-" then
        match cur with
        | some c =>
          if c.entity_group = t.label.drop 2 then
            let offs := getWordOffsets text tokenText
            processToks text ts (some { c with
              word := c.word ++ tokenText,
              endPos := offs.2,
              score := (c.score + t.score) / 2 })
          else processToks text ts (some c)
        | none => processToks text ts none
      else
        match cur with
        | some c => c :: processToks text ts none
        | none => processToks text ts none

/-- The merge step inside `ONNXNERModel._aggregate_entities`
(lines 203-206): space-joined words, the later fragment's `end`, and the
pairwise average of the two scores. -/
def mergeFrag (cur e : EntityFragment) : EntityFragment :=
  { cur with
    word := cur.word ++ ' ' :: e.word,
    endPos := e.endPos,
    score := (cur.score + e.score) / 2 }

/-- The loop of `_aggregate_entities` (lines 200-213) with `cur` playing
the role of the `current` accumulator. -/
def aggLoop (cur : EntityFragment) : List EntityFragment → List EntityFragment
  | [] => [cur]
  | e :: es =>
    if e.entity_group = cur.entity_group ∧ e.start - cur.endPos ≤ 1 then
      aggLoop (mergeFrag cur e) es
    else
      cur :: aggLoop e es

/-- Embedding of `ONNXNERModel._aggregate_entities` (lines 192-215). -/
def aggregateEntities : List EntityFragment → List EntityFragment
  | [] => []
  | e :: es => aggLoop e es

/-- Embedding of `ONNXNERModel._process_ner_outputs` (lines 100-181):
the BIO scan followed, for the `"simple"` strategy, by aggregation. -/
def processNerOutputs (text : Str) (toks : List Token) (aggregationStrategy : Str) :
    List EntityFragment :=
  let entities := processToks text toks none
  if aggregationStrategy = strL "simple" then aggregateEntities entities else entities

/-- Embedding of `ONNXNERModel.__call__` (lines 75-98) with its default
`aggregation_strategy="simple"`, as invoked by `main.py`.  `tokensFor`
abstracts the external tokenizer + ONNX model. -/
def onnxNerCall (tokensFor : Str → List Token) (text : Str) : List EntityFragment :=
  processNerOutputs text (tokensFor text) (strL "simple")

/-- Python `text.split("\n\n")`: split on every non-overlapping
occurrence of a double newline, keeping empty pieces. -/
def splitOnNN : Str → List Str
  | [] => [[]]
  | '\n' :: '\n' :: rest => [] :: splitOnNN rest
  | c :: rest =>
    match splitOnNN rest with
    | p :: ps => (c :: p) :: ps
    | [] => [[c]]

/-- Inverse of `splitOnNN`: interleave the pieces with `"\n\n"`. -/
def joinNN : List Str → Str
  | [] => []
  | [c] => c
  | c :: cs => c ++ '\n' :: '\n' :: joinNN cs

/-- Python `not chunk.strip()`: the chunk is empty or all whitespace. -/
def isBlank (c : Str) : Bool := c.all Char.isWhitespace

/-- The offset correction of `analyze_entities` (main.py, lines 287-289):
add the running chunk offset to every fragment's `start` and `end`. -/
def offsetFrags (o : ℤ) (fs : List EntityFragment) : List EntityFragment :=
  fs.map fun f => { f with start := f.start + o, endPos := f.endPos + o }

/-- Embedding of the chunk loop of `analyze_entities` (main.py,
lines 275-292): blank chunks advance the offset by `len(chunk) + 2` and
are skipped, other chunks are decoded by `ONNXNERModel.__call__`,
offset-corrected and appended, and the offset advances likewise. -/
def processChunks (tokensFor : Str → List Token) (o : ℤ) :
    List Str → List EntityFragment
  | [] => []
  | c :: cs =>
    if isBlank c then processChunks tokensFor (o + c.length + 2) cs
    else
      offsetFrags o (onnxNerCall tokensFor c) ++
        processChunks tokensFor (o + c.length + 2) cs

/-- Embedding of the NER result assembly of `analyze_entities` (main.py,
lines 268-295): documents longer than 5000 characters go through the
paragraph-chunked path, shorter ones are decoded in one piece. -/
def analyzeEntities (tokensFor : Str → List Token) (text : Str) : List EntityFragment :=
  if 5000 < text.length then processChunks tokensFor 0 (splitOnNN text)
  else onnxNerCall tokensFor text

/-- The running offsets of the chunk loop: the offset of each chunk in
turn, starting at `o` and advancing by `len(chunk) + 2` after every
chunk (blank or not). -/
def offsetsFrom (o : ℤ) : List Str → List ℤ
  | [] => []
  | c :: cs => o :: offsetsFrom (o + c.length + 2) cs

/-- Like `processChunks` but collecting the *pre-aggregation* fragments
of each chunk (the raw output of the BIO scan), offset-corrected.  This
is the "entire offset-corrected fragment list" that the spec's §4.3
says is fed to a single global aggregation pass. -/
def processChunksRaw (tokensFor : Str → List Token) (o : ℤ) :
    List Str → List EntityFragment
  | [] => []
  | c :: cs =>
    if isBlank c then processChunksRaw tokensFor (o + c.length + 2) cs
    else
      offsetFrags o (processToks c (tokensFor c) none) ++
        processChunksRaw tokensFor (o + c.length + 2) cs

/-- The whole-document offset-corrected raw fragment list. -/
def rawOffsetFragments (tokensFor : Str → List Token) (text : Str) : List EntityFragment :=
  processChunksRaw tokensFor 0 (splitOnNN text)

/-- Modelled from the spec (§4.3, §2): the alternative pipeline the spec
describes, in which the simple-strategy aggregator is run exactly once
across the entire offset-corrected fragment list rather than per chunk. -/
def specGlobalAggregate (tokensFor : Str → List Token) (text : Str) : List EntityFragment :=
  aggregateEntities (rawOffsetFragments tokensFor text)

/-- The final `Entity` pydantic model of main.py (lines 138-143). -/
structure Entity where
  entity : Str
  type : Str
  score : ℚ
  start : ℤ
  endPos : ℤ
deriving DecidableEq

/-- The conversion loop of `analyze_entities` (main.py, lines 330-339). -/
def toEntity (f : EntityFragment) : Entity :=
  { entity := f.word, type := f.entity_group, score := f.score,
    start := f.start, endPos := f.endPos }

/-- The final entity list returned in the `entities` field of the NER
response (main.py, lines 330-339 applied to the chunked results). -/
def finalEntities (tokensFor : Str → List Token) (text : Str) : List Entity :=
  (analyzeEntities tokensFor text).map toEntity

/-- The `GroupedEntity` pydantic model of main.py (lines 145-149). -/
structure GroupedEntity where
  entity : Str
  type : Str
  count : ℕ
  mentions : List Entity
deriving DecidableEq

/-- Ordered-dictionary lookup (Python `dict` preserves insertion order;
`m[k]` / `k in m`). -/
def alookup {α : Type} (k : Str) : List (Str × α) → Option α
  | [] => none
  | (k', v) :: m => if k = k' then some v else alookup k m

/-- Ordered-dictionary update of an existing key in place. -/
def aupdate {α : Type} (k : Str) (f : α → α) : List (Str × α) → List (Str × α)
  | [] => []
  | (k', v) :: m => if k = k' then (k', f v) :: m else (k', v) :: aupdate k f m

/-- In-place mutation of the list element at a given index
(Python `grouped[entity_type][idx]`). -/
def modifyIdx {α : Type} (f : α → α) : ℕ → List α → List α
  | _, [] => []
  | 0, a :: as => f a :: as
  | n + 1, a :: as => a :: modifyIdx f n as

/-- The two dictionaries built by the grouping loop of `analyze_entities`
(main.py, lines 342-343): `grouped : type → [GroupedEntity]` and
`entity_texts : type → {lowercaseText → groupIndex}`. -/
structure GroupState where
  grouped : List (Str × List GroupedEntity)
  entity_texts : List (Str × List (Str × ℕ))

/-- One iteration of the grouping loop of `analyze_entities` (main.py,
lines 345-371): initialize the type group if absent, then either append
a mention to the group found through `entity_texts` or start a new
group recording its index. -/
def groupStep (st : GroupState) (e : Entity) : GroupState :=
  let st' :=
    if (alookup e.type st.grouped).isNone then
      { grouped := st.grouped ++ [(e.type, [])],
        entity_texts := st.entity_texts ++ [(e.type, [])] }
    else st
  match alookup e.type st'.entity_texts with
  | none => st'
  | some tx =>
    match alookup (toLowerStr e.entity) tx with
    | some idx =>
      { st' with
        grouped := aupdate e.type
          (modifyIdx (fun g =>
            { g with count := g.count + 1, mentions := g.mentions ++ [e] }) idx)
          st'.grouped }
    | none =>
      let idx := ((alookup e.type st'.grouped).getD []).length
      { grouped := aupdate e.type
          (fun gs => gs ++ [{ entity := e.entity, type := e.type,
                              count := 1, mentions := [e] }]) st'.grouped,
        entity_texts := aupdate e.type
          (fun tx' => tx' ++ [(toLowerStr e.entity, idx)]) st'.entity_texts }

/-- The grouping pass of `analyze_entities` (main.py, lines 341-371):
the `grouped_entities` mapping built from the final entity list. -/
def groupEntities (es : List Entity) : List (Str × List GroupedEntity) :=
  (es.foldl groupStep ⟨[], []⟩).grouped

/-- The `ZeroShotResult` shape returned by `ONNXZeroShotModel.__call__`
(onnx_inference.py, lines 309-313). -/
structure ZeroShotResponse where
  sequence : Str
  labels : List Str
  scores : List ℚ
deriving DecidableEq

/-- `np.argmax` helper: first index attaining the maximum, together with
that maximum. -/
def argmaxAux : List ℚ → Option (ℕ × ℚ)
  | [] => none
  | x :: xs =>
    match argmaxAux xs with
    | none => some (0, x)
    | some (j, m) => if m > x then some (j + 1, m) else some (0, x)

/-- `np.argmax`: the first index of the maximum; `none` on an empty
sequence (where NumPy raises `ValueError`). -/
def argmaxIdx (l : List ℚ) : Option ℕ := (argmaxAux l).map Prod.fst

/-- Embedding of `ONNXZeroShotModel.__call__` (onnx_inference.py,
lines 254-315).  `labelScore` abstracts lines 276-296 — hypothesis
construction, external tokenizer/model inference and the
softmax-or-max-logit conversion — giving each candidate label's scalar
score.  The selection of lines 299-306 (`results`) is computed but, as
in the source, not part of the returned response; it is retained here
because `np.argmax` of an empty score list raises, which the `Except`
models. -/
def onnxZeroShotCall (labelScore : Str → ℚ) (text : Str)
    (candidateLabels : List Str) (multiLabel : Bool) :
    Except Str ZeroShotResponse :=
  let scores := candidateLabels.map labelScore
  let selection : Except Str (List Str) :=
    if multiLabel then
      Except.ok (((candidateLabels.zip scores).filter fun p => 1 / 2 < p.2).map Prod.fst)
    else
      match argmaxIdx scores with
      | some maxIdx => Except.ok [candidateLabels.getD maxIdx []]
      | none => Except.error (strL "attempt to get argmax of an empty sequence")
  selection.bind fun _ =>
    Except.ok { sequence := text, labels := candidateLabels, scores := scores }

/-- Concatenation of the `word` fields of a fragment list. -/
def wordsCat (fs : List EntityFragment) : Str := (fs.map EntityFragment.word).flatten

/-- Erase every space character (the character inserted by fragment
merging), formalizing "ignoring the spaces added by merging". -/
def dropSpaces (s : Str) : Str := s.filter fun c => ¬(c = ' ')

/-- The entities of one type, in order (spec-side helper for the
grouped-entity characterization). -/
def ofType (t : Str) (es : List Entity) : List Entity :=
  es.filter fun e => e.type = t

/-- Order-preserving deduplication keeping the first occurrence of each
element (spec-side helper). -/
def firstOccur : List Str → List Str
  | [] => []
  | x :: xs => x :: firstOccur (xs.filter fun y => ¬(y = x))
termination_by l => l.length
decreasing_by
  exact Nat.lt_succ_of_le (List.length_filter_le _ _)

/-- Pair each key with its position, starting at `n` (spec-side helper
describing the `entity_texts` index map). -/
def keysWithIdx : List Str → ℕ → List (Str × ℕ)
  | [], _ => []
  | k :: ks, n => (k, n) :: keysWithIdx ks (n + 1)

/-- The lowercase key of a grouped entity. -/
def lowKey (g : GroupedEntity) : Str := toLowerStr g.entity

/-- Invariant of the grouping loop (proof device): the `entity_texts`
index maps each type to the position table of its groups' lowercase
keys, absent types have no entities so far, and each type's group list
carries exactly the first-occurrence keys of its entities with the
mentions partitioned by key. -/
def GroupInv (st : GroupState) (pre : List Entity) : Prop :=
  (∀ t, alookup t st.entity_texts =
      (alookup t st.grouped).map fun gs => keysWithIdx (gs.map lowKey) 0) ∧
  (∀ t, alookup t st.grouped = none → ofType t pre = []) ∧
  (∀ t gs, alookup t st.grouped = some gs →
    gs.map lowKey = firstOccur ((ofType t pre).map fun e => toLowerStr e.entity) ∧
    ∀ j g, gs.get? j = some g →
      g.count = g.mentions.length ∧
      g.mentions = (ofType t pre).filter fun e => toLowerStr e.entity = lowKey g)

/-! ### Concrete inputs used in scenario theorems, counterexamples and witnesses -/

/-- Token row for the C1 scenario: `"Apple"`, tag `B-PER`, logit 0.9. -/
def tokApple : Token :=
  { mask := true, special := false, text := strL "Apple", label := strL "B-PER", score := 9 / 10 }

/-- Token row for the C1 scenario: `"bee"`, tag `I-PER`, logit 0.8. -/
def tokBee : Token :=
  { mask := true, special := false, text := strL "bee", label := strL "I-PER", score := 8 / 10 }

/-- Token row for the C1 scenario: `"ate"`, tag `O`. -/
def tokAte : Token :=
  { mask := true, special := false, text := strL "ate", label := strL "O", score := 0 }

/-- Token oracle for the C1 scenario. -/
def tf1 : Str → List Token := fun _ => [tokApple, tokBee, tokAte]

/-- A `B-PER` token whose surface text `"Bob"` occurs in its chunk. -/
def tokBob : Token :=
  { mask := true, special := false, text := strL "Bob", label := strL "B-PER", score := 1 }

/-- A `B-PER` token whose surface text `"q"` does not occur in its chunk,
forcing a `(-1, -1)` offset-resolution miss. -/
def tokQ : Token :=
  { mask := true, special := false, text := strL "q", label := strL "B-PER", score := 1 }

/-- Long all-`'a'` filler paragraph pushing a document over the
5000-character chunking threshold. -/
def fillerA : Str := List.replicate 5001 'a'

/-- Counterexample document for C2: chunks `"Bob"`, `"xy"` and the long
filler (total length 5010 > 5000). -/
def doc2cx : Str := strL "Bob" ++ strL "\n\n" ++ strL "xy" ++ strL "\n\n" ++ fillerA

/-- Token oracle for the C2 counterexample: `"Bob"` in the first chunk,
the unresolvable `"q"` in the second, nothing in the filler. -/
def tf2cx : Str → List Token := fun c =>
  if c = strL "Bob" then [tokBob] else if c = strL "xy" then [tokQ] else []

/-- Counterexample document for C4: chunks `"ab"`, `"xy"` and the long
filler (total length 5009 > 5000). -/
def doc4cx : Str := strL "ab" ++ strL "\n\n" ++ strL "xy" ++ strL "\n\n" ++ fillerA

/-- Token oracle for the C4 counterexample: only the second chunk `"xy"`
yields a token, and its surface text `"q"` is unresolvable there. -/
def tf4cx : Str → List Token := fun c => if c = strL "xy" then [tokQ] else []

/-- Token oracle used for the C5 counterexample: a single unresolvable
token in a short (unchunked) document. -/
def tf5cx : Str → List Token := fun _ => [tokQ]

/-- Token oracle used in several witnesses: no tokens at all. -/
def tfEmpty : Str → List Token := fun _ => []

/-- Witness document for the chunked-path theorems: three 4000-character
paragraphs (total length 12004 > 5000). -/
def doc8w : Str :=
  List.replicate 4000 'a' ++ strL "\n\n" ++ List.replicate 4000 'a' ++ strL "\n\n" ++
    List.replicate 4000 'a'

/-! ## Helper lemmas -/

lemma splitOnNN_cons_ne (c : Char) (rest : Str) (hc : ¬ c = '\n') :
    splitOnNN (c :: rest) =
      match splitOnNN rest with
      | p :: ps => (c :: p) :: ps
      | [] => [[c]] := by
  rw [splitOnNN.eq_def]
  split
  · simp_all
  · simp_all
  · rename_i heq
    cases heq
    rfl

lemma splitOnNN_cons_of (c : Char) (rest p : Str) (ps : List Str)
    (hc : ¬ c = '\n') (h : splitOnNN rest = p :: ps) :
    splitOnNN (c :: rest) = (c :: p) :: ps := by
  rw [splitOnNN_cons_ne c rest hc, h]

lemma splitOnNN_sep (rest : Str) :
    splitOnNN ('\n' :: '\n' :: rest) = [] :: splitOnNN rest := rfl

lemma splitOnNN_replicate_a (n : ℕ) :
    splitOnNN (List.replicate n 'a') = [List.replicate n 'a'] := by
  induction n with
  | zero => rfl
  | succ n ih =>
    rw [List.replicate_succ]
    rw [splitOnNN_cons_of 'a' _ _ _ (by decide) ih]

lemma splitOnNN_fillerA : splitOnNN fillerA = [fillerA] := splitOnNN_replicate_a 5001

lemma splitOnNN_doc2cx : splitOnNN doc2cx = [strL "Bob", strL "xy", fillerA] := by
  show splitOnNN
    ('B' :: 'o' :: 'b' :: '\n' :: '\n' :: 'x' :: 'y' :: '\n' :: '\n' :: fillerA) = _
  rw [splitOnNN_cons_of 'B' _ _ _ (by decide) (splitOnNN_cons_of 'o' _ _ _ (by decide)
    (splitOnNN_cons_of 'b' _ _ _ (by decide) (by rw [splitOnNN_sep,
      splitOnNN_cons_of 'x' _ _ _ (by decide) (splitOnNN_cons_of 'y' _ _ _ (by decide)
        (by rw [splitOnNN_sep, splitOnNN_fillerA]))])))]
  rfl

lemma splitOnNN_doc4cx : splitOnNN doc4cx = [strL "ab", strL "xy", fillerA] := by
  show splitOnNN
    ('a' :: 'b' :: '\n' :: '\n' :: 'x' :: 'y' :: '\n' :: '\n' :: fillerA) = _
  rw [splitOnNN_cons_of 'a' _ _ _ (by decide) (splitOnNN_cons_of 'b' _ _ _ (by decide)
    (by rw [splitOnNN_sep,
      splitOnNN_cons_of 'x' _ _ _ (by decide) (splitOnNN_cons_of 'y' _ _ _ (by decide)
        (by rw [splitOnNN_sep, splitOnNN_fillerA]))]))]
  rfl

lemma length_doc2cx : doc2cx.length = 5010 := by
  show (strL "Bob" ++ strL "\n\n" ++ strL "xy" ++ strL "\n\n" ++ fillerA).length = 5010
  rw [List.length_append, List.length_append, List.length_append, List.length_append,
    show fillerA.length = 5001 from List.length_replicate _ _,
    show (strL "Bob").length = 3 from rfl, show (strL "\n\n").length = 2 from rfl,
    show (strL "xy").length = 2 from rfl]

lemma length_doc4cx : doc4cx.length = 5009 := by
  show (strL "ab" ++ strL "\n\n" ++ strL "xy" ++ strL "\n\n" ++ fillerA).length = 5009
  rw [List.length_append, List.length_append, List.length_append, List.length_append,
    show fillerA.length = 5001 from List.length_replicate _ _,
    show (strL "ab").length = 2 from rfl, show (strL "\n\n").length = 2 from rfl,
    show (strL "xy").length = 2 from rfl]

lemma length_doc8w : doc8w.length = 12004 := by
  show (List.replicate 4000 'a' ++ strL "\n\n" ++ List.replicate 4000 'a' ++ strL "\n\n" ++
      List.replicate 4000 'a').length = 12004
  rw [List.length_append, List.length_append, List.length_append, List.length_append,
    List.length_replicate, show (strL "\n\n").length = 2 from rfl]

lemma aggLoop_cons (cur e : EntityFragment) (es : List EntityFragment) :
    aggLoop cur (e :: es) =
      if e.entity_group = cur.entity_group ∧ e.start - cur.endPos ≤ 1 then
        aggLoop (mergeFrag cur e) es
      else cur :: aggLoop e es := rfl

lemma aggLoop_length (es : List EntityFragment) :
    ∀ cur, (aggLoop cur es).length ≤ es.length + 1 := by
  induction es with
  | nil => intro cur; simp [aggLoop]
  | cons e es ih =>
    intro cur
    rw [aggLoop_cons]
    split
    · exact le_trans (ih _) (by simp)
    · simpa using ih e

lemma dropSpaces_append (a b : Str) :
    dropSpaces (a ++ b) = dropSpaces a ++ dropSpaces b := by
  simp [dropSpaces, List.filter_append]

lemma wordsCat_cons (f : EntityFragment) (fs : List EntityFragment) :
    wordsCat (f :: fs) = f.word ++ wordsCat fs := by
  simp [wordsCat]

lemma aggLoop_words (es : List EntityFragment) :
    ∀ cur, dropSpaces (wordsCat (aggLoop cur es)) =
      dropSpaces (cur.word ++ wordsCat es) := by
  induction es with
  | nil => intro cur; simp [aggLoop, wordsCat]
  | cons e es ih =>
    intro cur
    rw [aggLoop_cons]
    split
    · rw [ih]
      simp only [mergeFrag, wordsCat_cons, dropSpaces_append]
      simp [dropSpaces]
    · rw [wordsCat_cons, dropSpaces_append, ih e, wordsCat_cons, dropSpaces_append,
        dropSpaces_append]
      rw [dropSpaces_append]

/-- C6: for every input fragment sequence the simple aggregator emits at
most as many entities as it received, and the concatenation of output
texts with all spaces erased (in particular the single spaces the merge
step inserts) equals the concatenation of input texts with all spaces
erased. -/
theorem c6_aggregator_conservation (fs : List EntityFragment) :
    (aggregateEntities fs).length ≤ fs.length ∧
      dropSpaces (wordsCat (aggregateEntities fs)) = dropSpaces (wordsCat fs) := by
  cases fs with
  | nil => simp [aggregateEntities]
  | cons e es =>
    constructor
    · simpa [aggregateEntities] using aggLoop_length es e
    · simpa [aggregateEntities, wordsCat_cons, dropSpaces_append] using aggLoop_words es e

/-- C10: a fragment whose `start` is the `-1` sentinel always passes the
adjacency test `start - previousEnd <= 1` against a preceding fragment
whose `end` is `-1` or nonnegative, so a same-type fragment with
unresolved offsets is unconditionally merged into the preceding
fragment by the simple aggregator. -/
theorem c10_unresolved_start_always_merges
    (pre e : EntityFragment) (es : List EntityFragment)
    (hstart : e.start = -1) (hgroup : e.entity_group = pre.entity_group)
    (hend : pre.endPos = -1 ∨ 0 ≤ pre.endPos) :
    aggregateEntities (pre :: e :: es) = aggregateEntities (mergeFrag pre e :: es) := by
  have hcond : e.entity_group = pre.entity_group ∧ e.start - pre.endPos ≤ 1 := by
    refine ⟨hgroup, ?_⟩
    rw [hstart]
    rcases hend with h | h <;> omega
  show aggLoop pre (e :: es) = aggregateEntities (mergeFrag pre e :: es)
  rw [aggLoop_cons, if_pos hcond]
  cases es with
  | nil => rfl
  | cons e' es' => rfl

/-- Witness for C10 at a concrete merged pair. -/
theorem c10_witness :
    ((⟨strL "PER", strL "q", 1, -1, -1⟩ : EntityFragment).start = -1 ∧
      (⟨strL "PER", strL "q", 1, -1, -1⟩ : EntityFragment).entity_group =
        (⟨strL "PER", strL "Bob", 1, 0, 3⟩ : EntityFragment).entity_group ∧
      ((⟨strL "PER", strL "Bob", 1, 0, 3⟩ : EntityFragment).endPos = -1 ∨
        0 ≤ (⟨strL "PER", strL "Bob", 1, 0, 3⟩ : EntityFragment).endPos)) ∧
    aggregateEntities [⟨strL "PER", strL "Bob", 1, 0, 3⟩, ⟨strL "PER", strL "q", 1, -1, -1⟩] =
      aggregateEntities [mergeFrag ⟨strL "PER", strL "Bob", 1, 0, 3⟩
        ⟨strL "PER", strL "q", 1, -1, -1⟩] := by
  refine ⟨⟨rfl, rfl, Or.inr (by norm_num)⟩, ?_⟩
  exact c10_unresolved_start_always_merges _ _ [] rfl rfl (Or.inr (by norm_num))

/-- C1: on the scenario tokens `B-PER:"Apple"` (0.9), `I-PER:"bee"`
(0.8), `O:"ate"` over the chunk text `"Applebee ate"`, the decoder with
simple aggregation yields exactly one `PER` fragment `"Applebee"` at
offsets `[0, 8)` whose score is the average of 0.9 and 0.8, i.e. 0.85. -/
theorem c1_scenario :
    onnxNerCall tf1 (strL "Applebee ate") =
      [{ entity_group := strL "PER", word := strL "Applebee",
         score := (9 / 10 + 8 / 10) / 2, start := 0, endPos := 8 }] ∧
    ((9 : ℚ) / 10 + 8 / 10) / 2 = 17 / 20 :=
  ⟨rfl, by norm_num⟩

lemma argmaxAux_of_ne_nil (l : List ℚ) (h : l ≠ []) : ∃ p, argmaxAux l = some p := by
  cases l with
  | nil => exact absurd rfl h
  | cons x xs =>
    show ∃ p, (match argmaxAux xs with
      | none => some (0, x)
      | some (j, m) => if m > x then some (j + 1, m) else some (0, x)) = some p
    rcases hx : argmaxAux xs with _ | ⟨j, m⟩
    · exact ⟨(0, x), rfl⟩
    · by_cases hm : m > x
      · exact ⟨(j + 1, m), by simp [hm]⟩
      · exact ⟨(0, x), by simp [hm]⟩

/-- C3 counterexample: with an empty `candidateLabels` sequence and
`multi_label=False`, the scorer does not return a degenerate result: the
`np.argmax` over the empty score list raises, modelled as an error. -/
theorem c3_counterexample :
    onnxZeroShotCall (fun _ => 0) (strL "x") [] false =
      Except.error (strL "attempt to get argmax of an empty sequence") := rfl

/-- C3 (amended): with an empty `candidateLabels` sequence the scorer
returns the degenerate empty-labels/empty-scores result when
`multi_label=True`, but errors (NumPy `ValueError` from `argmax` of an
empty sequence) when `multi_label=False`. -/
theorem c3_empty_labels_behavior (labelScore : Str → ℚ) (text : Str) :
    onnxZeroShotCall labelScore text [] true =
      Except.ok { sequence := text, labels := [], scores := [] } ∧
    onnxZeroShotCall labelScore text [] false =
      Except.error (strL "attempt to get argmax of an empty sequence") :=
  ⟨rfl, rfl⟩

/-- C7: for every non-empty `candidateLabels` sequence and either
`multi_label` setting, the scorer returns (without error) a result whose
`labels` equal the input labels in input order and whose `scores` are
index-aligned with them (the i-th score is the score of the i-th label),
in particular of equal length. -/
theorem c7_zero_shot_alignment (labelScore : Str → ℚ) (text : Str)
    (labels : List Str) (multiLabel : Bool) (h : labels ≠ []) :
    ∃ r, onnxZeroShotCall labelScore text labels multiLabel = Except.ok r ∧
      r.labels = labels ∧ r.scores.length = labels.length ∧
      r.scores = labels.map labelScore := by
  cases multiLabel with
  | true =>
    exact ⟨{ sequence := text, labels := labels, scores := labels.map labelScore },
      rfl, rfl, by simp, rfl⟩
  | false =>
    have hm : labels.map labelScore ≠ [] := by
      simpa using h
    obtain ⟨p, hp⟩ := argmaxAux_of_ne_nil _ hm
    refine ⟨{ sequence := text, labels := labels, scores := labels.map labelScore },
      ?_, rfl, by simp, rfl⟩
    show (match argmaxIdx (labels.map labelScore) with
      | some maxIdx => Except.ok [labels.getD maxIdx []]
      | none => Except.error (strL "attempt to get argmax of an empty sequence")).bind
        (fun _ => Except.ok _) = _
    rw [show argmaxIdx (labels.map labelScore) = some p.1 by rw [argmaxIdx, hp]; rfl]
    rfl

/-- Witness for C7 on the spec's two-label scenario. -/
theorem c7_witness :
    ([strL "sports", strL "politics"] ≠ ([] : List Str)) ∧
    (∃ r, onnxZeroShotCall (fun _ => 3 / 10) (strL "t")
        [strL "sports", strL "politics"] false = Except.ok r ∧
      r.labels = [strL "sports", strL "politics"] ∧
      r.scores.length = [strL "sports", strL "politics"].length ∧
      r.scores = [strL "sports", strL "politics"].map (fun _ => 3 / 10)) :=
  ⟨by simp, c7_zero_shot_alignment (fun _ => 3 / 10) (strL "t")
    [strL "sports", strL "politics"] false (by simp)⟩

lemma processChunks_step (tf : Str → List Token) (o : ℤ) (c : Str) (cs : List Str) :
    processChunks tf o (c :: cs) =
      if isBlank c then processChunks tf (o + c.length + 2) cs
      else offsetFrags o (onnxNerCall tf c) ++ processChunks tf (o + c.length + 2) cs := rfl

lemma processChunksRaw_step (tf : Str → List Token) (o : ℤ) (c : Str) (cs : List Str) :
    processChunksRaw tf o (c :: cs) =
      if isBlank c then processChunksRaw tf (o + c.length + 2) cs
      else offsetFrags o (processToks c (tf c) none) ++
        processChunksRaw tf (o + c.length + 2) cs := rfl

lemma processChunks_eq_zip (tf : Str → List Token) :
    ∀ (cs : List Str) (o : ℤ),
      processChunks tf o cs =
        ((cs.zip (offsetsFrom o cs)).map fun p =>
          if isBlank p.1 then [] else offsetFrags p.2 (onnxNerCall tf p.1)).flatten := by
  intro cs
  induction cs with
  | nil => intro o; rfl
  | cons c cs ih =>
    intro o
    rw [processChunks_step, show offsetsFrom o (c :: cs) =
      o :: offsetsFrom (o + c.length + 2) cs from rfl, List.zip_cons_cons,
      List.map_cons, List.flatten_cons, ih]
    by_cases hb : isBlank c
    · simp only [hb, if_true, List.nil_append]
    · simp only [hb, if_false, Bool.false_eq_true]

/-- C8: for documents over the 5000-character threshold, the NER result
is the concatenation, over the `"\n\n"`-split chunks paired with their
running offsets (starting at 0 and advancing by `len(chunk) + 2` after
every chunk, blank or not), of the per-chunk decode with `start`/`end`
shifted by the chunk's offset — blank chunks contributing nothing. -/
theorem c8_chunked_offset_correction (tf : Str → List Token) (text : Str)
    (h : 5000 < text.length) :
    analyzeEntities tf text =
      (((splitOnNN text).zip (offsetsFrom 0 (splitOnNN text))).map fun p =>
        if isBlank p.1 then [] else offsetFrags p.2 (onnxNerCall tf p.1)).flatten := by
  rw [analyzeEntities, if_pos h, processChunks_eq_zip]

lemma splitOnNN_replicate_append (n : ℕ) (rest p : Str) (ps : List Str)
    (h : splitOnNN rest = p :: ps) :
    splitOnNN (List.replicate n 'a' ++ rest) = (List.replicate n 'a' ++ p) :: ps := by
  induction n with
  | zero => simpa using h
  | succ n ih =>
    rw [List.replicate_succ, List.cons_append,
      splitOnNN_cons_of 'a' _ _ _ (by decide) ih, List.cons_append]

lemma nn_cons_append (s : Str) : strL "\n\n" ++ s = '\n' :: '\n' :: s := rfl

lemma splitOnNN_doc8w :
    splitOnNN doc8w =
      [List.replicate 4000 'a', List.replicate 4000 'a', List.replicate 4000 'a'] := by
  show splitOnNN (List.replicate 4000 'a' ++ strL "\n\n" ++ List.replicate 4000 'a' ++
    strL "\n\n" ++ List.replicate 4000 'a') = _
  simp only [List.append_assoc]
  rw [nn_cons_append, nn_cons_append]
  rw [splitOnNN_replicate_append 4000 _ _ _ (by
    rw [splitOnNN_sep, splitOnNN_replicate_append 4000 _ _ _ (by
      rw [splitOnNN_sep, splitOnNN_replicate_a 4000])])]
  simp only [List.append_nil]

/-- Witness for C8 on the spec's 12,000-character three-paragraph
scenario: the chunk offsets are 0, 4002 and 8004, and a fragment at
local offset 10 of the second chunk lands at final offset 4012. -/
theorem c8_witness :
    5000 < doc8w.length ∧
    (analyzeEntities tfEmpty doc8w =
      (((splitOnNN doc8w).zip (offsetsFrom 0 (splitOnNN doc8w))).map fun p =>
        if isBlank p.1 then [] else offsetFrags p.2 (onnxNerCall tfEmpty p.1)).flatten) ∧
    offsetsFrom 0 (splitOnNN doc8w) = [0, 4002, 8004] ∧
    (∀ g w s, offsetFrags 4002 [⟨g, w, s, 10, 12⟩] = [⟨g, w, s, 4012, 4014⟩]) := by
  have hlen : 5000 < doc8w.length := by rw [length_doc8w]; norm_num
  refine ⟨hlen, c8_chunked_offset_correction tfEmpty doc8w hlen, ?_, ?_⟩
  · rw [splitOnNN_doc8w]
    simp only [offsetsFrom, List.length_replicate]
    norm_num
  · intro g w s
    show [(⟨g, w, s, 10 + 4002, 12 + 4002⟩ : EntityFragment)] = _
    norm_num

lemma analyzeEntities_doc2cx :
    analyzeEntities tf2cx doc2cx =
      [⟨strL "PER", strL "Bob", 1, 0, 3⟩, ⟨strL "PER", strL "q", 1, 4, 4⟩] := by
  rw [analyzeEntities, if_pos (by rw [length_doc2cx]; norm_num), splitOnNN_doc2cx]
  rfl

lemma specGlobalAggregate_doc2cx :
    specGlobalAggregate tf2cx doc2cx =
      [⟨strL "PER", strL "Bob" ++ ' ' :: strL "q", (1 + 1) / 2, 0, 4⟩] := by
  rw [specGlobalAggregate, rawOffsetFragments, splitOnNN_doc2cx]
  rfl

lemma analyzeEntities_doc4cx :
    analyzeEntities tf4cx doc4cx = [⟨strL "PER", strL "q", 1, 3, 3⟩] := by
  rw [analyzeEntities, if_pos (by rw [length_doc4cx]; norm_num), splitOnNN_doc4cx]
  rfl

/-- C2 counterexample: on a concrete 5010-character document whose second
chunk yields an offset-resolution miss (`start == -1`) adjacent to the
first chunk's final fragment, the per-chunk pipeline keeps two entities
while a single global aggregation pass over the offset-corrected
fragment list merges them — the two pipelines differ. -/
theorem c2_counterexample :
    analyzeEntities tf2cx doc2cx ≠ specGlobalAggregate tf2cx doc2cx := by
  rw [analyzeEntities_doc2cx, specGlobalAggregate_doc2cx]
  intro h
  simpa using congrArg List.length h

/-- C4 counterexample: the decoder's `-1` start offset is not propagated
as-is through the chunked path — on a concrete 5009-character document
the fragment decoded with `start == -1` in the second chunk (offset 4)
surfaces in the final result with `start == 3`, and no `-1` start
remains. -/
theorem c4_counterexample :
    processToks (strL "xy") (tf4cx (strL "xy")) none =
      [⟨strL "PER", strL "q", 1, -1, -1⟩] ∧
    (analyzeEntities tf4cx doc4cx).map EntityFragment.start = [3] ∧
    ¬ (-1 : ℤ) ∈ (analyzeEntities tf4cx doc4cx).map EntityFragment.start := by
  refine ⟨rfl, ?_, ?_⟩
  · rw [analyzeEntities_doc4cx]
    rfl
  · rw [analyzeEntities_doc4cx]
    simp

/-- C4 (amended): a failed substring search still yields the `(-1, -1)`
sentinel offsets and the decode never fails, but in the chunked path a
fragment's `start` — the `-1` sentinel included — is shifted by its
chunk's running offset like any other value, so `-1` survives unchanged
only at offset 0 (in particular for unchunked documents). -/
theorem c4_sentinel_offsets (tf : Str → List Token) (text : Str) :
    (∀ txt tokenText, findSub (toLowerStr tokenText) (toLowerStr txt) = none →
      getWordOffsets txt tokenText = (-1, -1)) ∧
    (text.length ≤ 5000 → analyzeEntities tf text = onnxNerCall tf text) ∧
    (5000 < text.length → ∀ f ∈ analyzeEntities tf text,
      ∃ p ∈ (splitOnNN text).zip (offsetsFrom 0 (splitOnNN text)),
        ∃ g ∈ onnxNerCall tf p.1,
          f.start = g.start + p.2 ∧ f.endPos = g.endPos + p.2) := by
  refine ⟨?_, ?_, ?_⟩
  · intro txt tokenText h
    rw [getWordOffsets, h]
  · intro h
    rw [analyzeEntities, if_neg (by omega)]
  · intro h f hf
    rw [analyzeEntities, if_pos h, processChunks_eq_zip] at hf
    rw [List.mem_flatten] at hf
    obtain ⟨l, hl, hfl⟩ := hf
    rw [List.mem_map] at hl
    obtain ⟨p, hp, hpl⟩ := hl
    by_cases hb : isBlank p.1
    · rw [← hpl, if_pos hb] at hfl
      exact absurd hfl (List.not_mem_nil f)
    · rw [← hpl, if_neg hb] at hfl
      rw [offsetFrags, List.mem_map] at hfl
      obtain ⟨g, hg, hgf⟩ := hfl
      exact ⟨p, hp, g, hg, by rw [← hgf], by rw [← hgf]⟩

/-- Witness for C4 (amended) at the concrete counterexample document. -/
theorem c4_witness :
    (findSub (toLowerStr (strL "q")) (toLowerStr (strL "xy")) = none ∧
      (strL "xy").length ≤ 5000 ∧ 5000 < doc4cx.length ∧
      (⟨strL "PER", strL "q", 1, 3, 3⟩ : EntityFragment) ∈ analyzeEntities tf4cx doc4cx) ∧
    getWordOffsets (strL "xy") (strL "q") = (-1, -1) ∧
    analyzeEntities tf5cx (strL "xy") = onnxNerCall tf5cx (strL "xy") ∧
    (∃ p ∈ (splitOnNN doc4cx).zip (offsetsFrom 0 (splitOnNN doc4cx)),
      ∃ g ∈ onnxNerCall tf4cx p.1,
        (⟨strL "PER", strL "q", 1, 3, 3⟩ : EntityFragment).start = g.start + p.2 ∧
        (⟨strL "PER", strL "q", 1, 3, 3⟩ : EntityFragment).endPos = g.endPos + p.2) := by
  have hlen : 5000 < doc4cx.length := by rw [length_doc4cx]; norm_num
  have hmem : (⟨strL "PER", strL "q", 1, 3, 3⟩ : EntityFragment) ∈
      analyzeEntities tf4cx doc4cx := by
    rw [analyzeEntities_doc4cx]
    simp
  refine ⟨⟨rfl, by decide, hlen, hmem⟩, ?_, ?_, ?_⟩
  · exact (c4_sentinel_offsets tf4cx doc4cx).1 (strL "xy") (strL "q") rfl
  · exact (c4_sentinel_offsets tf5cx (strL "xy")).2.1 (by decide)
  · exact (c4_sentinel_offsets tf4cx doc4cx).2.2 hlen _ hmem

/-- C5 counterexample: a final entity produced from an offset-resolution
miss has `start == -1`, violating `0 ≤ start`. -/
theorem c5_counterexample :
    ¬ ∀ e ∈ finalEntities tf5cx (strL "xy"),
      0 ≤ e.start ∧ e.start ≤ e.endPos ∧ e.endPos ≤ ((strL "xy").length : ℤ) := by
  intro h
  have hm : (⟨strL "q", strL "PER", 1, -1, -1⟩ : Entity) ∈ finalEntities tf5cx (strL "xy") := by
    rw [show finalEntities tf5cx (strL "xy") =
      [⟨strL "q", strL "PER", 1, -1, -1⟩] from rfl]
    simp
  exact absurd (h _ hm).1 (by norm_num)

lemma leadMatch_length (pat : Str) : ∀ s, leadMatch pat s = true → pat.length ≤ s.length := by
  induction pat with
  | nil => intro s _; simp
  | cons p ps ih =>
    intro s h
    cases s with
    | nil => simp [leadMatch] at h
    | cons c cs =>
      simp only [leadMatch, Bool.and_eq_true] at h
      simpa using ih cs h.2

lemma findFrom_bounds (pat : Str) :
    ∀ (s : Str) (acc i : ℕ), findFrom pat s acc = some i →
      acc ≤ i ∧ i + pat.length ≤ acc + s.length := by
  intro s
  induction s with
  | nil =>
    intro acc i h
    rw [findFrom] at h
    by_cases hm : leadMatch pat [] = true
    · rw [if_pos hm] at h
      cases h
      have := leadMatch_length pat [] hm
      simp only [List.length_nil] at this ⊢
      omega
    · simp only [hm, if_false, Bool.false_eq_true] at h
      cases h
  | cons c cs ih =>
    intro acc i h
    rw [findFrom] at h
    by_cases hm : leadMatch pat (c :: cs) = true
    · rw [if_pos hm] at h
      cases h
      have := leadMatch_length pat (c :: cs) hm
      simp only [List.length_cons] at this ⊢
      omega
    · simp only [hm, if_false, Bool.false_eq_true] at h
      have := ih (acc + 1) i h
      simp only [List.length_cons]
      omega

lemma findSub_bounds (pat s : Str) (i : ℕ) (h : findSub pat s = some i) :
    i + pat.length ≤ s.length := by
  have := (findFrom_bounds pat s 0 i h).2
  omega

lemma toLowerStr_length (s : Str) : (toLowerStr s).length = s.length := by
  simp [toLowerStr]

lemma getWordOffsets_bounds (text tokenText : Str) :
    -1 ≤ (getWordOffsets text tokenText).1 ∧ -1 ≤ (getWordOffsets text tokenText).2 ∧
      (getWordOffsets text tokenText).2 ≤ (text.length : ℤ) := by
  rcases h : findSub (toLowerStr tokenText) (toLowerStr text) with _ | i
  · rw [getWordOffsets, h]
    refine ⟨?_, ?_, ?_⟩ <;> dsimp only <;> omega
  · rw [getWordOffsets, h]
    have hb := findSub_bounds _ _ _ h
    rw [toLowerStr_length, toLowerStr_length] at hb
    refine ⟨?_, ?_, ?_⟩ <;> dsimp only <;> omega

lemma processToks_step (text : Str) (t : Token) (ts : List Token)
    (cur : Option EntityFragment) :
    processToks text (t :: ts) cur =
      if t.mask = false then processToks text ts cur
      else if t.special then processToks text ts cur
      else
        let tokenText := stripSubword t.text
        if t.label.take 2 = strL "B-" then
          let offs := getWordOffsets text tokenText
          let newCur : EntityFragment :=
            { entity_group := t.label.drop 2, word := tokenText, score := t.score,
              start := offs.1, endPos := offs.2 }
          match cur with
          | some c => c :: processToks text ts (some newCur)
          | none => processToks text ts (some newCur)
        else if t.label.take 2 = strL "I-" then
          match cur with
          | some c =>
            if c.entity_group = t.label.drop 2 then
              let offs := getWordOffsets text tokenText
              processToks text ts (some { c with
                word := c.word ++ tokenText,
                endPos := offs.2,
                score := (c.score + t.score) / 2 })
            else processToks text ts (some c)
          | none => processToks text ts none
        else
          match cur with
          | some c => c :: processToks text ts none
          | none => processToks text ts none := rfl

lemma processToks_bounds (text : Str) :
    ∀ (toks : List Token) (cur : Option EntityFragment),
      (∀ c, cur = some c → -1 ≤ c.start ∧ -1 ≤ c.endPos ∧ c.endPos ≤ (text.length : ℤ)) →
      ∀ f ∈ processToks text toks cur,
        -1 ≤ f.start ∧ -1 ≤ f.endPos ∧ f.endPos ≤ (text.length : ℤ) := by
  intro toks
  induction toks with
  | nil =>
    intro cur hcur f hf
    cases cur with
    | none => simp [processToks] at hf
    | some c =>
      rw [show processToks text [] (some c) = [c] from rfl] at hf
      rw [List.mem_singleton] at hf
      exact hf ▸ hcur c rfl
  | cons t ts ih =>
    intro cur hcur f hf
    rw [processToks_step] at hf
    by_cases hm : t.mask = false
    · rw [if_pos hm] at hf
      exact ih cur hcur f hf
    rw [if_neg hm] at hf
    by_cases hs : t.special
    · rw [if_pos hs] at hf
      exact ih cur hcur f hf
    rw [if_neg hs] at hf
    simp only at hf
    by_cases hB : t.label.take 2 = strL "B-"
    · rw [if_pos hB] at hf
      cases cur with
      | some c =>
        rw [List.mem_cons] at hf
        rcases hf with hf | hf
        · exact hf ▸ hcur c rfl
        · exact ih _ (fun c' hc' => by
            cases hc'
            exact getWordOffsets_bounds text (stripSubword t.text)) f hf
      | none =>
        exact ih _ (fun c' hc' => by
          cases hc'
          exact getWordOffsets_bounds text (stripSubword t.text)) f hf
    rw [if_neg hB] at hf
    by_cases hI : t.label.take 2 = strL "I-"
    · rw [if_pos hI] at hf
      cases cur with
      | some c =>
        dsimp only at hf
        by_cases hg : c.entity_group = t.label.drop 2
        · rw [if_pos hg] at hf
          refine ih _ ?_ f hf
          intro c' hc'
          cases hc'
          have h1 := hcur c rfl
          have h2 := getWordOffsets_bounds text (stripSubword t.text)
          exact ⟨h1.1, h2.2.1, h2.2.2⟩
        · rw [if_neg hg] at hf
          exact ih _ (fun c' hc' => by cases hc'; exact hcur c rfl) f hf
      | none => exact ih _ (fun c hc => by cases hc) f hf
    rw [if_neg hI] at hf
    cases cur with
    | some c =>
      rw [List.mem_cons] at hf
      rcases hf with hf | hf
      · exact hf ▸ hcur c rfl
      · exact ih _ (fun c hc => by cases hc) f hf
    | none => exact ih _ (fun c hc => by cases hc) f hf

lemma aggLoop_forall (pred : EntityFragment → Prop)
    (hmerge : ∀ a b, pred a → pred b → pred (mergeFrag a b)) :
    ∀ (es : List EntityFragment) (cur : EntityFragment),
      pred cur → (∀ e ∈ es, pred e) → ∀ f ∈ aggLoop cur es, pred f := by
  intro es
  induction es with
  | nil =>
    intro cur hcur _ f hf
    rw [show aggLoop cur [] = [cur] from rfl, List.mem_singleton] at hf
    exact hf ▸ hcur
  | cons e es ih =>
    intro cur hcur hes f hf
    rw [aggLoop_cons] at hf
    split at hf
    · exact ih _ (hmerge cur e hcur (hes e (List.mem_cons_self _ _)))
        (fun x hx => hes x (List.mem_cons_of_mem e hx)) f hf
    · rw [List.mem_cons] at hf
      rcases hf with hf | hf
      · exact hf ▸ hcur
      · exact ih e (hes e (List.mem_cons_self _ _))
          (fun x hx => hes x (List.mem_cons_of_mem e hx)) f hf

lemma aggregateEntities_forall (pred : EntityFragment → Prop)
    (hmerge : ∀ a b, pred a → pred b → pred (mergeFrag a b))
    (es : List EntityFragment) (hes : ∀ e ∈ es, pred e) :
    ∀ f ∈ aggregateEntities es, pred f := by
  cases es with
  | nil => intro f hf; simp [aggregateEntities] at hf
  | cons e es =>
    exact aggLoop_forall pred hmerge es e (hes e (List.mem_cons_self _ _))
      (fun x hx => hes x (List.mem_cons_of_mem e hx))

lemma onnxNerCall_bounds (tf : Str → List Token) (c : Str) :
    ∀ f ∈ onnxNerCall tf c,
      -1 ≤ f.start ∧ -1 ≤ f.endPos ∧ f.endPos ≤ (c.length : ℤ) := by
  intro f hf
  rw [show onnxNerCall tf c =
    aggregateEntities (processToks c (tf c) none) from rfl] at hf
  exact aggregateEntities_forall
    (fun g => -1 ≤ g.start ∧ -1 ≤ g.endPos ∧ g.endPos ≤ (c.length : ℤ))
    (fun a b ha hb => ⟨ha.1, hb.2.1, hb.2.2⟩)
    (processToks c (tf c) none)
    (processToks_bounds c (tf c) none (fun c' hc' => by cases hc')) f hf

lemma splitOnNN_ne_nil (s : Str) : splitOnNN s ≠ [] := by
  rw [splitOnNN.eq_def]
  split
  · simp
  · simp
  · rename_i c rest h
    rcases hne : splitOnNN rest with _ | ⟨p, ps⟩ <;> simp

lemma splitOnNN_cons_notsep (c : Char) (rest : Str)
    (h : ∀ r, c = '\n' → rest = '\n' :: r → False) :
    splitOnNN (c :: rest) =
      match splitOnNN rest with
      | p :: ps => (c :: p) :: ps
      | [] => [[c]] := by
  rw [splitOnNN.eq_def]
  split
  · simp_all
  · rename_i heq
    rw [List.cons.injEq] at heq
    exact (h _ heq.1 heq.2).elim
  · rename_i heq
    cases heq
    rfl

lemma joinNN_cons_cons (x y : Str) (ys : List Str) :
    joinNN (x :: y :: ys) = x ++ '\n' :: '\n' :: joinNN (y :: ys) := rfl

lemma joinNN_splitOnNN (s : Str) : joinNN (splitOnNN s) = s := by
  induction s using splitOnNN.induct with
  | case1 => rfl
  | case2 rest ih =>
    rcases h : splitOnNN rest with _ | ⟨p, ps⟩
    · exact absurd h (splitOnNN_ne_nil rest)
    · rw [splitOnNN_sep, h, joinNN_cons_cons, ← h, ih]
      rfl
  | case3 c rest hc p ps h ih =>
    rw [splitOnNN_cons_notsep c rest hc, h]
    rw [h] at ih
    cases ps with
    | nil =>
      show c :: p = c :: rest
      rw [show joinNN [p] = p from rfl] at ih
      rw [ih]
    | cons q qs =>
      rw [joinNN_cons_cons, List.cons_append]
      rw [joinNN_cons_cons] at ih
      rw [ih]
  | case4 c rest hc h ih =>
    exact absurd h (splitOnNN_ne_nil rest)

lemma mem_offset_call_bounds (tf : Str → List Token) (c : Str) (o D : ℤ)
    (ho : 0 ≤ o) (hD : o + (c.length : ℤ) ≤ D) (f : EntityFragment)
    (hf : f ∈ offsetFrags o (onnxNerCall tf c)) :
    -1 ≤ f.start ∧ -1 ≤ f.endPos ∧ f.endPos ≤ D := by
  rw [offsetFrags, List.mem_map] at hf
  obtain ⟨g, hg, rfl⟩ := hf
  have hb := onnxNerCall_bounds tf c g hg
  refine ⟨?_, ?_, ?_⟩ <;> dsimp only <;> omega

lemma processChunks_bounds (tf : Str → List Token) (D : ℤ) :
    ∀ (cs : List Str) (o : ℤ), 0 ≤ o → o + ((joinNN cs).length : ℤ) ≤ D →
      ∀ f ∈ processChunks tf o cs,
        -1 ≤ f.start ∧ -1 ≤ f.endPos ∧ f.endPos ≤ D := by
  intro cs
  induction cs with
  | nil => intro o _ _ f hf; simp [processChunks] at hf
  | cons c cs ih =>
    intro o ho hD f hf
    rw [processChunks_step] at hf
    cases cs with
    | nil =>
      rw [show joinNN [c] = c from rfl] at hD
      by_cases hb : isBlank c
      · rw [if_pos hb] at hf
        simp [processChunks] at hf
      · rw [if_neg hb] at hf
        rw [show processChunks tf (o + c.length + 2) [] = [] from rfl,
          List.append_nil] at hf
        exact mem_offset_call_bounds tf c o D ho hD f hf
    | cons c2 cs2 =>
      rw [joinNN_cons_cons, List.length_append] at hD
      simp only [List.length_cons] at hD
      have hD1 : o + (c.length : ℤ) ≤ D := by
        push_cast at hD ⊢
        omega
      have hD2 : (o + c.length + 2) + ((joinNN (c2 :: cs2)).length : ℤ) ≤ D := by
        push_cast at hD ⊢
        omega
      by_cases hb : isBlank c
      · rw [if_pos hb] at hf
        exact ih (o + c.length + 2) (by omega) hD2 f hf
      · rw [if_neg hb] at hf
        rw [List.mem_append] at hf
        rcases hf with hf | hf
        · exact mem_offset_call_bounds tf c o D ho hD1 f hf
        · exact ih (o + c.length + 2) (by omega) hD2 f hf

/-- C5 (amended): every final Entity satisfies `-1 ≤ start`,
`-1 ≤ end` and `end ≤ len(document)`; the claimed lower bound
`0 ≤ start` fails when offset resolution misses (`start == -1`), and
`start ≤ end` is not guaranteed either, because a continuation token can
resolve to an earlier first occurrence than the entity's start. -/
theorem c5_entity_offset_bounds (tf : Str → List Token) (text : Str) :
    ∀ e ∈ finalEntities tf text,
      -1 ≤ e.start ∧ -1 ≤ e.endPos ∧ e.endPos ≤ (text.length : ℤ) := by
  intro e he
  rw [finalEntities, List.mem_map] at he
  obtain ⟨f, hf, rfl⟩ := he
  rw [analyzeEntities] at hf
  by_cases h : 5000 < text.length
  · rw [if_pos h] at hf
    have := processChunks_bounds tf (text.length : ℤ) (splitOnNN text) 0 le_rfl
      (by rw [joinNN_splitOnNN]; omega) f hf
    exact this
  · rw [if_neg h] at hf
    exact onnxNerCall_bounds tf text f hf

/-- Witness for C5 (amended) at a concrete offset-resolution miss. -/
theorem c5_witness :
    (⟨strL "q", strL "PER", 1, -1, -1⟩ : Entity) ∈ finalEntities tf5cx (strL "xy") ∧
    (-1 ≤ (⟨strL "q", strL "PER", 1, -1, -1⟩ : Entity).start ∧
      -1 ≤ (⟨strL "q", strL "PER", 1, -1, -1⟩ : Entity).endPos ∧
      (⟨strL "q", strL "PER", 1, -1, -1⟩ : Entity).endPos ≤ ((strL "xy").length : ℤ)) := by
  have hm : (⟨strL "q", strL "PER", 1, -1, -1⟩ : Entity) ∈ finalEntities tf5cx (strL "xy") := by
    rw [show finalEntities tf5cx (strL "xy") =
      [⟨strL "q", strL "PER", 1, -1, -1⟩] from rfl]
    simp
  exact ⟨hm, c5_entity_offset_bounds tf5cx (strL "xy") _ hm⟩

lemma aggLoop_append_far :
    ∀ (xs Y : List EntityFragment) (cur : EntityFragment),
      (∀ x ∈ cur :: xs, ∀ y, Y.head? = some y → 2 ≤ y.start - x.endPos) →
      aggLoop cur (xs ++ Y) = aggLoop cur xs ++ aggregateEntities Y := by
  intro xs
  induction xs with
  | nil =>
    intro Y cur hfar
    cases Y with
    | nil => rfl
    | cons y ys =>
      rw [List.nil_append, aggLoop_cons,
        if_neg (by
          intro hcond
          have := hfar cur (List.mem_cons_self _ _) y rfl
          omega)]
      rfl
  | cons x xs ih =>
    intro Y cur hfar
    rw [List.cons_append, aggLoop_cons, aggLoop_cons]
    by_cases hcond : x.entity_group = cur.entity_group ∧ x.start - cur.endPos ≤ 1
    · rw [if_pos hcond, if_pos hcond]
      refine ih Y (mergeFrag cur x) ?_
      intro z hz y hy
      rw [List.mem_cons] at hz
      rcases hz with hz | hz
      · have : (mergeFrag cur x).endPos = x.endPos := rfl
        rw [hz, this]
        exact hfar x (List.mem_cons_of_mem cur (List.mem_cons_self _ _)) y hy
      · exact hfar z (List.mem_cons_of_mem cur (List.mem_cons_of_mem x hz)) y hy
    · rw [if_neg hcond, if_neg hcond, List.cons_append]
      rw [ih Y x (fun z hz y hy => by
        rw [List.mem_cons] at hz
        rcases hz with hz | hz
        · exact hfar z (by rw [hz]; exact List.mem_cons_of_mem cur (List.mem_cons_self _ _)) y hy
        · exact hfar z (List.mem_cons_of_mem cur (List.mem_cons_of_mem x hz)) y hy)]

lemma aggregateEntities_append_far (X Y : List EntityFragment)
    (hfar : ∀ x ∈ X, ∀ y, Y.head? = some y → 2 ≤ y.start - x.endPos) :
    aggregateEntities (X ++ Y) = aggregateEntities X ++ aggregateEntities Y := by
  cases X with
  | nil => rfl
  | cons x xs =>
    rw [List.cons_append, show aggregateEntities (x :: (xs ++ Y)) =
      aggLoop x (xs ++ Y) from rfl, show aggregateEntities (x :: xs) =
      aggLoop x xs from rfl]
    exact aggLoop_append_far xs Y x hfar

lemma mergeFrag_offset (o : ℤ) (a b : EntityFragment) :
    mergeFrag ({ a with start := a.start + o, endPos := a.endPos + o })
        ({ b with start := b.start + o, endPos := b.endPos + o }) =
      { mergeFrag a b with
        start := (mergeFrag a b).start + o, endPos := (mergeFrag a b).endPos + o } := rfl

lemma aggLoop_offset (o : ℤ) :
    ∀ (es : List EntityFragment) (cur : EntityFragment),
      aggLoop { cur with start := cur.start + o, endPos := cur.endPos + o }
          (es.map fun f => { f with start := f.start + o, endPos := f.endPos + o }) =
        (aggLoop cur es).map fun f =>
          { f with start := f.start + o, endPos := f.endPos + o } := by
  intro es
  induction es with
  | nil => intro cur; rfl
  | cons e es ih =>
    intro cur
    rw [List.map_cons, aggLoop_cons, aggLoop_cons]
    by_cases hcond : e.entity_group = cur.entity_group ∧ e.start - cur.endPos ≤ 1
    · rw [if_pos hcond, if_pos (by
        refine ⟨hcond.1, ?_⟩
        have h2 := hcond.2
        dsimp only
        omega), mergeFrag_offset]
      exact ih (mergeFrag cur e)
    · rw [if_neg hcond, if_neg (by
        intro hc
        refine hcond ⟨hc.1, ?_⟩
        have h2 := hc.2
        dsimp only at h2
        omega), List.map_cons, ih e]

lemma aggregateEntities_offsetFrags (o : ℤ) (es : List EntityFragment) :
    aggregateEntities (offsetFrags o es) = offsetFrags o (aggregateEntities es) := by
  cases es with
  | nil => rfl
  | cons e es =>
    rw [offsetFrags, List.map_cons,
      show aggregateEntities ({ e with start := e.start + o, endPos := e.endPos + o} ::
        es.map fun f => { f with start := f.start + o, endPos := f.endPos + o }) =
      aggLoop { e with start := e.start + o, endPos := e.endPos + o}
        (es.map fun f => { f with start := f.start + o, endPos := f.endPos + o }) from rfl,
      aggLoop_offset o es e]
    rfl

lemma processChunksRaw_start_lb (tf : Str → List Token) :
    ∀ (cs : List Str) (o : ℤ),
      (∀ c ∈ cs, ∀ f ∈ processToks c (tf c) none, 0 ≤ f.start) →
      ∀ f ∈ processChunksRaw tf o cs, o ≤ f.start := by
  intro cs
  induction cs with
  | nil => intro o _ f hf; simp [processChunksRaw] at hf
  | cons c cs ih =>
    intro o hres f hf
    rw [processChunksRaw_step] at hf
    have htail : ∀ f ∈ processChunksRaw tf (o + c.length + 2) cs, o ≤ f.start := by
      intro f hf
      have := ih (o + c.length + 2)
        (fun c' hc' => hres c' (List.mem_cons_of_mem c hc')) f hf
      have hc : (0 : ℤ) ≤ (c.length : ℤ) := by positivity
      omega
    by_cases hb : isBlank c
    · rw [if_pos hb] at hf
      exact htail f hf
    · rw [if_neg hb] at hf
      rw [List.mem_append] at hf
      rcases hf with hf | hf
      · rw [offsetFrags, List.mem_map] at hf
        obtain ⟨g, hg, rfl⟩ := hf
        have := hres c (List.mem_cons_self _ _) g hg
        dsimp only
        omega
      · exact htail f hf

lemma processChunks_eq_aggregate_raw (tf : Str → List Token) :
    ∀ (cs : List Str) (o : ℤ),
      (∀ c ∈ cs, ∀ f ∈ processToks c (tf c) none, 0 ≤ f.start) →
      aggregateEntities (processChunksRaw tf o cs) = processChunks tf o cs := by
  intro cs
  induction cs with
  | nil => intro o _; rfl
  | cons c cs ih =>
    intro o hres
    rw [processChunksRaw_step, processChunks_step]
    have htail := ih (o + c.length + 2) (fun c' hc' => hres c' (List.mem_cons_of_mem c hc'))
    by_cases hb : isBlank c
    · rw [if_pos hb, if_pos hb]
      exact htail
    · rw [if_neg hb, if_neg hb]
      rw [aggregateEntities_append_far _ _ (by
        intro x hx y hy
        rw [offsetFrags, List.mem_map] at hx
        obtain ⟨g, hg, rfl⟩ := hx
        have hgend : g.endPos ≤ (c.length : ℤ) :=
          (processToks_bounds c (tf c) none (fun c' hc' => by cases hc') g hg).2.2
        have hymem : y ∈ processChunksRaw tf (o + c.length + 2) cs := by
          rcases hr : processChunksRaw tf (o + c.length + 2) cs with _ | ⟨z, zs⟩
          · rw [hr] at hy
            cases hy
          · rw [hr] at hy
            cases hy
            exact List.mem_cons_self _ _
        have hystart := processChunksRaw_start_lb tf cs (o + c.length + 2)
          (fun c' hc' => hres c' (List.mem_cons_of_mem c hc')) y hymem
        dsimp only
        omega)]
      rw [aggregateEntities_offsetFrags, htail]
      rfl

/-- C2 (amended): for documents over the 5000-character threshold, the
per-chunk pipeline (decode each chunk with simple aggregation, then
offset-correct) coincides with running the simple aggregator exactly
once over the entire offset-corrected raw fragment list, provided every
raw fragment's start offset is resolved (`0 ≤ start`).  The
counterexample shows the proviso is necessary: an unresolved `start`
(`-1`) in a chunk at positive offset can merge across a chunk boundary
in the global pass, which the per-chunk pipeline never does. -/
theorem c2_chunked_equals_global_aggregation (tf : Str → List Token) (text : Str)
    (h5 : 5000 < text.length)
    (hres : ∀ c ∈ splitOnNN text, ∀ f ∈ processToks c (tf c) none, 0 ≤ f.start) :
    analyzeEntities tf text = specGlobalAggregate tf text := by
  rw [analyzeEntities, if_pos h5, specGlobalAggregate, rawOffsetFragments,
    processChunks_eq_aggregate_raw tf (splitOnNN text) 0 hres]

/-- Witness for C2 (amended) on a long single-paragraph document with an
empty token stream. -/
theorem c2_witness :
    5000 < fillerA.length ∧
    (∀ c ∈ splitOnNN fillerA, ∀ f ∈ processToks c (tfEmpty c) none, 0 ≤ f.start) ∧
    analyzeEntities tfEmpty fillerA = specGlobalAggregate tfEmpty fillerA := by
  have h5 : 5000 < fillerA.length := by
    rw [show fillerA.length = 5001 from List.length_replicate _ _]
    norm_num
  have hres : ∀ c ∈ splitOnNN fillerA, ∀ f ∈ processToks c (tfEmpty c) none, 0 ≤ f.start := by
    intro c _ f hf
    rw [show processToks c (tfEmpty c) none = [] from rfl] at hf
    cases hf
  exact ⟨h5, hres, c2_chunked_equals_global_aggregation tfEmpty fillerA h5 hres⟩

lemma alookup_append {α : Type} (k : Str) (m₁ m₂ : List (Str × α)) :
    alookup k (m₁ ++ m₂) =
      match alookup k m₁ with
      | some v => some v
      | none => alookup k m₂ := by
  induction m₁ with
  | nil => rfl
  | cons kv m₁ ih =>
    obtain ⟨k', v⟩ := kv
    by_cases h : k = k'
    · rw [List.cons_append, show alookup k ((k', v) :: (m₁ ++ m₂)) =
        if k = k' then some v else alookup k (m₁ ++ m₂) from rfl,
        show alookup k ((k', v) :: m₁) = if k = k' then some v else alookup k m₁ from rfl,
        if_pos h, if_pos h]
    · rw [List.cons_append, show alookup k ((k', v) :: (m₁ ++ m₂)) =
        if k = k' then some v else alookup k (m₁ ++ m₂) from rfl,
        show alookup k ((k', v) :: m₁) = if k = k' then some v else alookup k m₁ from rfl,
        if_neg h, if_neg h, ih]

lemma alookup_aupdate {α : Type} (k k' : Str) (f : α → α) (m : List (Str × α)) :
    alookup k (aupdate k' f m) =
      if k = k' then (alookup k m).map f else alookup k m := by
  induction m with
  | nil => by_cases h : k = k' <;> simp [aupdate, alookup, h]
  | cons kv m ih =>
    obtain ⟨k₁, v⟩ := kv
    by_cases h1 : k' = k₁
    · subst h1
      by_cases h2 : k = k'
      · subst h2
        simp [aupdate, alookup]
      · simp [aupdate, alookup, h2]
    · by_cases h2 : k = k₁
      · subst h2
        simp only [aupdate, alookup, if_neg h1, if_neg (fun hh : k = k' => h1 hh.symm)]
        simp [alookup]
      · simp only [aupdate, alookup, if_neg h1,
          if_neg (fun hh : k = k₁ => h2 hh)]
        exact ih

lemma alookup_keysWithIdx_none (k : Str) :
    ∀ (ks : List Str) (n : ℕ), alookup k (keysWithIdx ks n) = none ↔ ¬ k ∈ ks := by
  intro ks
  induction ks with
  | nil => intro n; simp [keysWithIdx, alookup]
  | cons k' ks ih =>
    intro n
    rw [show keysWithIdx (k' :: ks) n = (k', n) :: keysWithIdx ks (n + 1) from rfl,
      show alookup k ((k', n) :: keysWithIdx ks (n + 1)) =
        if k = k' then some n else alookup k (keysWithIdx ks (n + 1)) from rfl]
    by_cases h : k = k'
    · simp [h]
    · rw [if_neg h, ih (n + 1)]
      simp [h]

lemma alookup_keysWithIdx_some (k : Str) :
    ∀ (ks : List Str) (n i : ℕ), alookup k (keysWithIdx ks n) = some i →
      ∃ j, i = n + j ∧ ks.get? j = some k := by
  intro ks
  induction ks with
  | nil => intro n i h; simp [keysWithIdx, alookup] at h
  | cons k' ks ih =>
    intro n i h
    rw [show keysWithIdx (k' :: ks) n = (k', n) :: keysWithIdx ks (n + 1) from rfl,
      show alookup k ((k', n) :: keysWithIdx ks (n + 1)) =
        if k = k' then some n else alookup k (keysWithIdx ks (n + 1)) from rfl] at h
    by_cases hk : k = k'
    · rw [if_pos hk] at h
      cases h
      exact ⟨0, by omega, by simp [hk]⟩
    · rw [if_neg hk] at h
      obtain ⟨j, hj, hget⟩ := ih (n + 1) i h
      exact ⟨j + 1, by omega, by simpa using hget⟩

lemma keysWithIdx_append (ks : List Str) (k : Str) :
    ∀ n, keysWithIdx (ks ++ [k]) n = keysWithIdx ks n ++ [(k, n + ks.length)] := by
  induction ks with
  | nil => intro n; simp [keysWithIdx]
  | cons k' ks ih =>
    intro n
    rw [List.cons_append, show keysWithIdx (k' :: (ks ++ [k])) n =
      (k', n) :: keysWithIdx (ks ++ [k]) (n + 1) from rfl, ih (n + 1),
      show keysWithIdx (k' :: ks) n = (k', n) :: keysWithIdx ks (n + 1) from rfl]
    simp only [List.cons_append, List.length_cons]
    rw [show n + 1 + ks.length = n + (ks.length + 1) by omega]

lemma modifyIdx_get {α : Type} (f : α → α) :
    ∀ (l : List α) (i j : ℕ),
      (modifyIdx f i l).get? j = if j = i then (l.get? j).map f else l.get? j := by
  intro l
  induction l with
  | nil =>
    intro i j
    cases i <;> simp [modifyIdx]
  | cons a l ih =>
    intro i j
    cases i with
    | zero =>
      cases j with
      | zero => simp [modifyIdx]
      | succ j => simp [modifyIdx]
    | succ i =>
      cases j with
      | zero => simp [modifyIdx]
      | succ j =>
        rw [show modifyIdx f (i + 1) (a :: l) = a :: modifyIdx f i l from rfl]
        simp only [List.get?_cons_succ]
        rw [ih i j]
        by_cases h : j = i
        · rw [if_pos h, if_pos (by omega)]
        · rw [if_neg h, if_neg (by omega)]

lemma modifyIdx_map_of_fix {α β : Type} (f : α → α) (h : α → β)
    (hp : ∀ a, h (f a) = h a) :
    ∀ (l : List α) (i : ℕ), (modifyIdx f i l).map h = l.map h := by
  intro l
  induction l with
  | nil => intro i; cases i <;> rfl
  | cons a l ih =>
    intro i
    cases i with
    | zero => simp [modifyIdx, hp]
    | succ i =>
      rw [show modifyIdx f (i + 1) (a :: l) = a :: modifyIdx f i l from rfl,
        List.map_cons, List.map_cons, ih i]

lemma firstOccur_cons (x : Str) (xs : List Str) :
    firstOccur (x :: xs) = x :: firstOccur (xs.filter fun y => ¬(y = x)) := by
  rw [firstOccur]

lemma firstOccur_nil : firstOccur [] = [] := by rw [firstOccur]

lemma firstOccur_append_singleton (k : Str) :
    ∀ l : List Str, firstOccur (l ++ [k]) =
      if k ∈ l then firstOccur l else firstOccur l ++ [k] := by
  intro l
  induction l using firstOccur.induct with
  | case1 => simp [firstOccur]
  | case2 x xs ih =>
    rw [List.cons_append, firstOccur_cons, List.filter_append]
    by_cases hk : k = x
    · rw [show List.filter (fun y => ¬(y = x)) [k] = [] from by simp [hk],
        List.append_nil, if_pos (by simp [hk]), firstOccur_cons]
    · rw [show List.filter (fun y => ¬(y = x)) [k] = [k] from by simp [hk], ih]
      by_cases hmem : k ∈ xs
      · rw [if_pos (by rw [List.mem_filter]; exact ⟨hmem, by simpa using hk⟩),
          if_pos (by simp [hmem]), firstOccur_cons]
      · rw [if_neg (by
          rw [List.mem_filter]
          rintro ⟨hin, _⟩
          exact hmem hin),
          if_neg (by
            simp only [List.mem_cons]
            rintro (h | h)
            · exact hk h
            · exact hmem h),
          firstOccur_cons, List.cons_append]

lemma mem_firstOccur (k : Str) : ∀ l : List Str, k ∈ firstOccur l ↔ k ∈ l := by
  intro l
  induction l using firstOccur.induct with
  | case1 => simp [firstOccur]
  | case2 x xs ih =>
    rw [firstOccur_cons]
    by_cases hk : k = x
    · simp [hk]
    · simp only [List.mem_cons, ih, List.mem_filter]
      simp [hk]

lemma ofType_append_singleton (t : Str) (pre : List Entity) (e : Entity) :
    ofType t (pre ++ [e]) = ofType t pre ++ if e.type = t then [e] else [] := by
  rw [ofType, List.filter_append, ofType]
  by_cases h : e.type = t <;> simp [h]

lemma groupStep_eq_new_type (st : GroupState) (e : Entity)
    (h : alookup e.type st.grouped = none)
    (htx : alookup e.type st.entity_texts = none) :
    groupStep st e =
      ⟨aupdate e.type (fun gs => gs ++ [⟨e.entity, e.type, 1, [e]⟩])
          (st.grouped ++ [(e.type, [])]),
        aupdate e.type (fun tx => tx ++ [(toLowerStr e.entity, 0)])
          (st.entity_texts ++ [(e.type, [])])⟩ := by
  rw [groupStep]
  rw [if_pos (by rw [h]; rfl)]
  dsimp only
  rw [alookup_append, htx]
  dsimp only
  rw [show alookup e.type [(e.type, ([] : List (Str × ℕ)))] = some [] from by
    simp [alookup]]
  dsimp only
  rw [show alookup (toLowerStr e.entity) ([] : List (Str × ℕ)) = none from rfl]
  dsimp only
  rw [alookup_append, h]
  dsimp only
  rw [show alookup e.type [(e.type, ([] : List GroupedEntity))] = some [] from by
    simp [alookup]]
  rfl

lemma groupStep_eq_known_key (st : GroupState) (e : Entity) (gs : List GroupedEntity)
    (idx : ℕ) (h : alookup e.type st.grouped = some gs)
    (htx : alookup e.type st.entity_texts = some (keysWithIdx (gs.map lowKey) 0))
    (hk : alookup (toLowerStr e.entity) (keysWithIdx (gs.map lowKey) 0) = some idx) :
    groupStep st e =
      { st with
        grouped :=
          aupdate e.type
            (modifyIdx
              (fun g => { g with count := g.count + 1, mentions := g.mentions ++ [e] })
              idx)
            st.grouped } := by
  rw [groupStep]
  rw [if_neg (by rw [h]; simp)]
  rw [htx]
  split
  · rename_i heq
    cases heq
  · rename_i tx heq
    rw [Option.some.injEq] at heq
    subst heq
    split
    · rename_i idx' heq2
      rw [hk, Option.some.injEq] at heq2
      subst heq2
      rfl
    · rename_i heq2
      rw [hk] at heq2
      cases heq2

lemma groupStep_eq_new_key (st : GroupState) (e : Entity) (gs : List GroupedEntity)
    (h : alookup e.type st.grouped = some gs)
    (htx : alookup e.type st.entity_texts = some (keysWithIdx (gs.map lowKey) 0))
    (hk : alookup (toLowerStr e.entity) (keysWithIdx (gs.map lowKey) 0) = none) :
    groupStep st e =
      ⟨aupdate e.type (fun gs' => gs' ++ [⟨e.entity, e.type, 1, [e]⟩]) st.grouped,
        aupdate e.type (fun tx => tx ++ [(toLowerStr e.entity, gs.length)])
          st.entity_texts⟩ := by
  rw [groupStep]
  rw [if_neg (by rw [h]; simp)]
  rw [htx]
  split
  · rename_i heq
    cases heq
  · rename_i tx heq
    rw [Option.some.injEq] at heq
    subst heq
    split
    · rename_i idx' heq2
      rw [hk] at heq2
      cases heq2
    · rename_i heq2
      dsimp only
      rw [h]
      rfl

lemma firstOccur_nodup : ∀ l : List Str, (firstOccur l).Nodup := by
  intro l
  induction l using firstOccur.induct with
  | case1 => simp [firstOccur]
  | case2 x xs ih =>
    rw [firstOccur_cons]
    refine List.Nodup.cons ?_ ih
    rw [mem_firstOccur]
    intro hmem
    rw [List.mem_filter] at hmem
    simpa using hmem.2

lemma filter_eq_nil_of_not_mem_map (k : Str) (es : List Entity)
    (h : ¬ k ∈ es.map fun e => toLowerStr e.entity) :
    es.filter (fun e => toLowerStr e.entity = k) = [] := by
  rw [List.filter_eq_nil_iff]
  intro e he
  simp only [decide_eq_true_eq]
  intro hk
  exact h (List.mem_map.mpr ⟨e, he, hk⟩)

lemma alookup_append_singleton_left {α : Type} (t t₀ : Str) (m : List (Str × α)) (v : α)
    (h : alookup t m = none) :
    alookup t (m ++ [(t₀, v)]) = if t = t₀ then some v else none := by
  rw [alookup_append, h]
  rfl

lemma alookup_append_singleton_of_some {α : Type} (t t₀ : Str) (m : List (Str × α))
    (v w : α) (h : alookup t m = some w) :
    alookup t (m ++ [(t₀, v)]) = some w := by
  rw [alookup_append, h]

lemma groupInv_step_new_type (st : GroupState) (pre : List Entity) (e : Entity)
    (hInv : GroupInv st pre) (hg : alookup e.type st.grouped = none) :
    GroupInv (groupStep st e) (pre ++ [e]) := by
  obtain ⟨hI1, hI2, hI3⟩ := hInv
  have htx : alookup e.type st.entity_texts = none := by
    rw [hI1, hg]
    rfl
  rw [groupStep_eq_new_type st e hg htx]
  have hglook : ∀ t, alookup t
      (aupdate e.type (fun gs => gs ++ [⟨e.entity, e.type, 1, [e]⟩])
        (st.grouped ++ [(e.type, [])])) =
      if t = e.type then some [⟨e.entity, e.type, 1, [e]⟩] else alookup t st.grouped := by
    intro t
    rw [alookup_aupdate]
    by_cases ht : t = e.type
    · subst ht
      rw [if_pos rfl, if_pos rfl, alookup_append_singleton_left e.type e.type _ _ hg, if_pos rfl]
      rfl
    · rw [if_neg ht, if_neg ht, alookup_append, ]
      rcases hl : alookup t st.grouped with _ | w
      · dsimp only
        rw [show alookup t [(e.type, ([] : List GroupedEntity))] =
          if t = e.type then some [] else none from rfl, if_neg ht]
      · rfl
  have htlook : ∀ t, alookup t
      (aupdate e.type (fun tx => tx ++ [(toLowerStr e.entity, 0)])
        (st.entity_texts ++ [(e.type, [])])) =
      if t = e.type then some [(toLowerStr e.entity, 0)]
      else alookup t st.entity_texts := by
    intro t
    rw [alookup_aupdate]
    by_cases ht : t = e.type
    · subst ht
      rw [if_pos rfl, if_pos rfl, alookup_append_singleton_left e.type e.type _ _ htx, if_pos rfl]
      rfl
    · rw [if_neg ht, if_neg ht, alookup_append]
      rcases hl : alookup t st.entity_texts with _ | w
      · dsimp only
        rw [show alookup t [(e.type, ([] : List (Str × ℕ)))] =
          if t = e.type then some [] else none from rfl, if_neg ht]
      · rfl
  have hofType : ∀ t, ofType t (pre ++ [e]) =
      ofType t pre ++ if e.type = t then [e] else [] := fun t =>
    ofType_append_singleton t pre e
  refine ⟨?_, ?_, ?_⟩
  · intro t
    rw [hglook t, htlook t]
    by_cases ht : t = e.type
    · rw [if_pos ht, if_pos ht]
      rfl
    · rw [if_neg ht, if_neg ht, hI1 t]
  · intro t ht
    rw [hglook t] at ht
    by_cases hte : t = e.type
    · rw [if_pos hte] at ht
      cases ht
    · rw [if_neg hte] at ht
      rw [hofType t, hI2 t ht, if_neg (fun hh => hte hh.symm)]
      rfl
  · intro t gs hgs
    rw [hglook t] at hgs
    by_cases hte : t = e.type
    · rw [if_pos hte] at hgs
      rw [Option.some.injEq] at hgs
      subst hgs
      subst hte
      have hempty : ofType e.type pre = [] := hI2 e.type hg
      rw [hofType e.type, hempty, if_pos rfl, List.nil_append]
      constructor
      · rw [show List.map lowKey [(⟨e.entity, e.type, 1, [e]⟩ : GroupedEntity)] =
          [toLowerStr e.entity] from rfl]
        rw [show List.map (fun e' => toLowerStr e'.entity) [e] =
          [toLowerStr e.entity] from rfl]
        rw [firstOccur_cons, List.filter_nil, firstOccur_nil]
      · intro j g hj
        cases j with
        | zero =>
          rw [show ([(⟨e.entity, e.type, 1, [e]⟩ : GroupedEntity)].get? 0) =
            some ⟨e.entity, e.type, 1, [e]⟩ from rfl, Option.some.injEq] at hj
          subst hj
          refine ⟨rfl, ?_⟩
          rw [show List.filter (fun e' => decide (toLowerStr e'.entity =
            lowKey ⟨e.entity, e.type, 1, [e]⟩)) [e] = [e] from by
              simp [lowKey]]
        | succ j =>
          rw [show ([(⟨e.entity, e.type, 1, [e]⟩ : GroupedEntity)].get? (j + 1)) =
            none from rfl] at hj
          cases hj
    · rw [if_neg hte] at hgs
      have hold := hI3 t gs hgs
      rw [hofType t, if_neg (fun hh => hte hh.symm), List.append_nil]
      exact hold

lemma lowKey_bump (e : Entity) (g : GroupedEntity) :
    lowKey { g with count := g.count + 1, mentions := g.mentions ++ [e] } = lowKey g := rfl

lemma groupInv_step_known_key (st : GroupState) (pre : List Entity) (e : Entity)
    (gs₀ : List GroupedEntity) (idx : ℕ) (hInv : GroupInv st pre)
    (hg : alookup e.type st.grouped = some gs₀)
    (hk : alookup (toLowerStr e.entity) (keysWithIdx (gs₀.map lowKey) 0) = some idx) :
    GroupInv (groupStep st e) (pre ++ [e]) := by
  obtain ⟨hI1, hI2, hI3⟩ := hInv
  have htx : alookup e.type st.entity_texts =
      some (keysWithIdx (gs₀.map lowKey) 0) := by
    rw [hI1, hg]
    rfl
  rw [groupStep_eq_known_key st e gs₀ idx hg htx hk]
  obtain ⟨j, hj0, hjget⟩ := alookup_keysWithIdx_some _ _ _ _ hk
  have hidx : (gs₀.map lowKey).get? idx = some (toLowerStr e.entity) := by
    rw [show idx = j from by omega]
    exact hjget
  have hkeys := (hI3 e.type gs₀ hg).1
  have hnodup : (gs₀.map lowKey).Nodup := by
    rw [hkeys]
    exact firstOccur_nodup _
  have hkmem : toLowerStr e.entity ∈ gs₀.map lowKey := List.get?_mem hidx
  have hidxlt : idx < (gs₀.map lowKey).length := (List.get?_eq_some.mp hidx).1
  have hglook : ∀ t, alookup t
      (aupdate e.type
        (modifyIdx
          (fun g => { g with count := g.count + 1, mentions := g.mentions ++ [e] })
          idx)
        st.grouped) =
      if t = e.type then
        some (modifyIdx
          (fun g => { g with count := g.count + 1, mentions := g.mentions ++ [e] })
          idx gs₀)
      else alookup t st.grouped := by
    intro t
    rw [alookup_aupdate]
    by_cases ht : t = e.type
    · subst ht
      rw [if_pos rfl, if_pos rfl, hg]
      rfl
    · rw [if_neg ht, if_neg ht]
  have hofType : ∀ t, ofType t (pre ++ [e]) =
      ofType t pre ++ if e.type = t then [e] else [] := fun t =>
    ofType_append_singleton t pre e
  have hmapfix : ∀ i,
      (modifyIdx
        (fun g => { g with count := g.count + 1, mentions := g.mentions ++ [e] })
        i gs₀).map lowKey = gs₀.map lowKey :=
    fun i => modifyIdx_map_of_fix _ lowKey (lowKey_bump e) gs₀ i
  refine ⟨?_, ?_, ?_⟩
  · intro t
    dsimp only
    rw [hglook t]
    by_cases ht : t = e.type
    · subst ht
      rw [if_pos rfl, htx, Option.map_some', hmapfix]
    · rw [if_neg ht, hI1 t]
  · intro t ht
    dsimp only at ht
    rw [hglook t] at ht
    by_cases hte : t = e.type
    · rw [if_pos hte] at ht
      cases ht
    · rw [if_neg hte] at ht
      rw [hofType t, hI2 t ht, if_neg (fun hh => hte hh.symm)]
      rfl
  · intro t gs hgs
    dsimp only at hgs
    rw [hglook t] at hgs
    by_cases hte : t = e.type
    · subst hte
      rw [if_pos rfl, Option.some.injEq] at hgs
      subst hgs
      constructor
      · rw [hmapfix, hkeys, hofType e.type, if_pos rfl, List.map_append,
          show List.map (fun x => toLowerStr x.entity) [e] =
            [toLowerStr e.entity] from rfl,
          firstOccur_append_singleton]
        rw [if_pos ((mem_firstOccur _ _).mp (hkeys ▸ hkmem))]
      · intro j' g hj'
        rw [modifyIdx_get] at hj'
        by_cases hji : j' = idx
        · rw [if_pos hji] at hj'
          rcases hq : gs₀.get? j' with _ | g₀
          · rw [hq] at hj'
            cases hj'
          · rw [hq] at hj'
            rw [Option.map_some', Option.some.injEq] at hj'
            subst hj'
            have hglow : lowKey g₀ = toLowerStr e.entity := by
              have := hidx
              rw [List.get?_map, ← hji, hq, Option.map_some',
                Option.some.injEq] at this
              exact this
            have hold := (hI3 e.type gs₀ hg).2 j' g₀ hq
            constructor
            · rw [show ({ g₀ with count := g₀.count + 1, mentions := g₀.mentions ++ [e] } : GroupedEntity).count = g₀.count + 1 from rfl, hold.1]
              simp
            · rw [show ({ g₀ with count := g₀.count + 1, mentions := g₀.mentions ++ [e] } : GroupedEntity).mentions = g₀.mentions ++ [e] from rfl, lowKey_bump,
                hofType e.type, if_pos rfl, List.filter_append, hold.2]
              congr 1
              have hglow2 : toLowerStr g₀.entity = toLowerStr e.entity := hglow
              symm
              rw [List.filter_eq_self]
              intro a ha
              rw [List.mem_singleton] at ha
              subst ha
              simpa using hglow2.symm
        · rw [if_neg hji] at hj'
          have hold := (hI3 e.type gs₀ hg).2 j' g hj'
          have hglow : lowKey g ≠ toLowerStr e.entity := by
            intro heq
            refine hji (List.get?_inj ?_ hnodup ?_)
            · exact (List.get?_eq_some.mp (by
                rw [List.get?_map, hj', Option.map_some'])).1
            · rw [List.get?_map, hj', Option.map_some', heq, hidx]
          refine ⟨hold.1, ?_⟩
          rw [hofType e.type, if_pos rfl, List.filter_append, hold.2]
          rw [show List.filter (fun e' => decide (toLowerStr e'.entity = lowKey g)) [e]
            = [] from by simp; exact fun hh => hglow hh.symm]
          rw [List.append_nil]
    · rw [if_neg hte] at hgs
      have hold := hI3 t gs hgs
      rw [hofType t, if_neg (fun hh => hte hh.symm), List.append_nil]
      exact hold

lemma groupInv_step_new_key (st : GroupState) (pre : List Entity) (e : Entity)
    (gs₀ : List GroupedEntity) (hInv : GroupInv st pre)
    (hg : alookup e.type st.grouped = some gs₀)
    (hk : alookup (toLowerStr e.entity) (keysWithIdx (gs₀.map lowKey) 0) = none) :
    GroupInv (groupStep st e) (pre ++ [e]) := by
  obtain ⟨hI1, hI2, hI3⟩ := hInv
  have htx : alookup e.type st.entity_texts =
      some (keysWithIdx (gs₀.map lowKey) 0) := by
    rw [hI1, hg]
    rfl
  rw [groupStep_eq_new_key st e gs₀ hg htx hk]
  have hkeys := (hI3 e.type gs₀ hg).1
  have hknotin : ¬ toLowerStr e.entity ∈ gs₀.map lowKey :=
    (alookup_keysWithIdx_none _ _ _).mp hk
  have hknotold : ¬ toLowerStr e.entity ∈
      (ofType e.type pre).map fun x => toLowerStr x.entity := by
    intro hmem
    exact hknotin (by rw [hkeys, mem_firstOccur]; exact hmem)
  have hglook : ∀ t, alookup t
      (aupdate e.type (fun gs' => gs' ++ [⟨e.entity, e.type, 1, [e]⟩]) st.grouped) =
      if t = e.type then some (gs₀ ++ [⟨e.entity, e.type, 1, [e]⟩])
      else alookup t st.grouped := by
    intro t
    rw [alookup_aupdate]
    by_cases ht : t = e.type
    · subst ht
      rw [if_pos rfl, if_pos rfl, hg]
      rfl
    · rw [if_neg ht, if_neg ht]
  have htlook : ∀ t, alookup t
      (aupdate e.type (fun tx => tx ++ [(toLowerStr e.entity, gs₀.length)])
        st.entity_texts) =
      if t = e.type then
        some (keysWithIdx (gs₀.map lowKey) 0 ++ [(toLowerStr e.entity, gs₀.length)])
      else alookup t st.entity_texts := by
    intro t
    rw [alookup_aupdate]
    by_cases ht : t = e.type
    · subst ht
      rw [if_pos rfl, if_pos rfl, htx]
      rfl
    · rw [if_neg ht, if_neg ht]
  have hofType : ∀ t, ofType t (pre ++ [e]) =
      ofType t pre ++ if e.type = t then [e] else [] := fun t =>
    ofType_append_singleton t pre e
  have hmapapp : (gs₀ ++ [(⟨e.entity, e.type, 1, [e]⟩ : GroupedEntity)]).map lowKey =
      gs₀.map lowKey ++ [toLowerStr e.entity] := by
    rw [List.map_append]
    rfl
  refine ⟨?_, ?_, ?_⟩
  · intro t
    dsimp only
    rw [hglook t, htlook t]
    by_cases ht : t = e.type
    · subst ht
      rw [if_pos rfl, if_pos rfl, Option.map_some', Option.some.injEq, hmapapp,
        keysWithIdx_append]
      rw [List.length_map]
      rw [Nat.zero_add]
    · rw [if_neg ht, if_neg ht, hI1 t]
  · intro t ht
    dsimp only at ht
    rw [hglook t] at ht
    by_cases hte : t = e.type
    · rw [if_pos hte] at ht
      cases ht
    · rw [if_neg hte] at ht
      rw [hofType t, hI2 t ht, if_neg (fun hh => hte hh.symm)]
      rfl
  · intro t gs hgs
    dsimp only at hgs
    rw [hglook t] at hgs
    by_cases hte : t = e.type
    · subst hte
      rw [if_pos rfl, Option.some.injEq] at hgs
      subst hgs
      constructor
      · rw [hmapapp, hkeys, hofType e.type, if_pos rfl, List.map_append,
          show List.map (fun x => toLowerStr x.entity) [e] =
            [toLowerStr e.entity] from rfl,
          firstOccur_append_singleton, if_neg hknotold]
      · intro j g hj
        by_cases hlt : j < gs₀.length
        · rw [List.get?_append hlt] at hj
          have hold := (hI3 e.type gs₀ hg).2 j g hj
          have hgne : lowKey g ≠ toLowerStr e.entity := by
            intro heq
            refine hknotin ?_
            rw [← heq]
            exact List.mem_map.mpr ⟨g, List.get?_mem hj, rfl⟩
          refine ⟨hold.1, ?_⟩
          rw [hofType e.type, if_pos rfl, List.filter_append, hold.2,
            show List.filter (fun e' => decide (toLowerStr e'.entity = lowKey g)) [e]
              = [] from by simp; exact fun hh => hgne hh.symm, List.append_nil]
        · rw [List.get?_append_right (by omega)] at hj
          rcases hj2 : j - gs₀.length with _ | j'
          · rw [hj2] at hj
            rw [show ([(⟨e.entity, e.type, 1, [e]⟩ : GroupedEntity)].get? 0) =
              some ⟨e.entity, e.type, 1, [e]⟩ from rfl, Option.some.injEq] at hj
            subst hj
            refine ⟨rfl, ?_⟩
            rw [hofType e.type, if_pos rfl, List.filter_append,
              show lowKey (⟨e.entity, e.type, 1, [e]⟩ : GroupedEntity) =
                toLowerStr e.entity from rfl,
              filter_eq_nil_of_not_mem_map _ _ hknotold, List.nil_append]
            rw [show List.filter (fun e' => decide (toLowerStr e'.entity =
              toLowerStr e.entity)) [e] = [e] from by simp]
          · rw [hj2] at hj
            rw [show ([(⟨e.entity, e.type, 1, [e]⟩ : GroupedEntity)].get? (j' + 1)) =
              none from rfl] at hj
            cases hj
    · rw [if_neg hte] at hgs
      have hold := hI3 t gs hgs
      rw [hofType t, if_neg (fun hh => hte hh.symm), List.append_nil]
      exact hold

lemma groupStep_inv (st : GroupState) (pre : List Entity) (e : Entity)
    (hInv : GroupInv st pre) : GroupInv (groupStep st e) (pre ++ [e]) := by
  rcases hg : alookup e.type st.grouped with _ | gs₀
  · exact groupInv_step_new_type st pre e hInv hg
  · rcases hk : alookup (toLowerStr e.entity) (keysWithIdx (gs₀.map lowKey) 0)
      with _ | idx
    · exact groupInv_step_new_key st pre e gs₀ hInv hg hk
    · exact groupInv_step_known_key st pre e gs₀ idx hInv hg hk

lemma foldl_groupStep_inv :
    ∀ (rest : List Entity) (st : GroupState) (pre : List Entity),
      GroupInv st pre → GroupInv (rest.foldl groupStep st) (pre ++ rest) := by
  intro rest
  induction rest with
  | nil =>
    intro st pre h
    rw [List.append_nil]
    exact h
  | cons e rest ih =>
    intro st pre h
    rw [List.foldl_cons, show pre ++ e :: rest = (pre ++ [e]) ++ rest from by simp]
    exact ih (groupStep st e) (pre ++ [e]) (groupStep_inv st pre e h)

lemma groupInv_init : GroupInv ⟨[], []⟩ [] :=
  ⟨fun _ => rfl, fun _ _ => rfl, fun _ _ h => by cases h⟩

/-- C9: for every entity sequence, each type's group list of the
Grouped Entity Index contains exactly one GroupedEntity per distinct
(type, lowercased text) pair, listed in first-occurrence order (its
lowercase keys are the order-preserving deduplication of the type's
entity keys); every group satisfies `count == len(mentions)`, and its
mentions are exactly the type's entities with that key, in order —
repeated mentions having been appended with the count incremented. -/
theorem c9_grouped_entity_index (es : List Entity) (t : Str) (gs : List GroupedEntity)
    (h : alookup t (groupEntities es) = some gs) :
    gs.map lowKey = firstOccur ((ofType t es).map fun e => toLowerStr e.entity) ∧
    ∀ g ∈ gs, g.count = g.mentions.length ∧
      g.mentions = (ofType t es).filter fun e => toLowerStr e.entity = lowKey g := by
  have hInv := foldl_groupStep_inv es ⟨[], []⟩ [] groupInv_init
  rw [List.nil_append] at hInv
  obtain ⟨_, _, hI3⟩ := hInv
  have hspec := hI3 t gs h
  refine ⟨hspec.1, ?_⟩
  intro g hgmem
  obtain ⟨j, hj⟩ := List.mem_iff_get?.mp hgmem
  exact hspec.2 j g hj

/-- Witness for C9 on a three-entity list with a case-insensitive
duplicate. -/
theorem c9_witness :
    alookup (strL "ORG") (groupEntities
        [⟨strL "Apple", strL "ORG", 1, 0, 5⟩, ⟨strL "apple", strL "ORG", 1, 10, 15⟩,
          ⟨strL "Bob", strL "PER", 1, 20, 23⟩]) =
      some [⟨strL "Apple", strL "ORG", 2,
        [⟨strL "Apple", strL "ORG", 1, 0, 5⟩, ⟨strL "apple", strL "ORG", 1, 10, 15⟩]⟩] ∧
    ([⟨strL "Apple", strL "ORG", 2,
        [⟨strL "Apple", strL "ORG", 1, 0, 5⟩,
          ⟨strL "apple", strL "ORG", 1, 10, 15⟩]⟩] : List GroupedEntity).map lowKey =
      firstOccur ((ofType (strL "ORG")
        [⟨strL "Apple", strL "ORG", 1, 0, 5⟩, ⟨strL "apple", strL "ORG", 1, 10, 15⟩,
          ⟨strL "Bob", strL "PER", 1, 20, 23⟩]).map fun e => toLowerStr e.entity) ∧
    ∀ g ∈ ([⟨strL "Apple", strL "ORG", 2,
        [⟨strL "Apple", strL "ORG", 1, 0, 5⟩,
          ⟨strL "apple", strL "ORG", 1, 10, 15⟩]⟩] : List GroupedEntity),
      g.count = g.mentions.length ∧
      g.mentions = (ofType (strL "ORG")
        [⟨strL "Apple", strL "ORG", 1, 0, 5⟩, ⟨strL "apple", strL "ORG", 1, 10, 15⟩,
          ⟨strL "Bob", strL "PER", 1, 20, 23⟩]).filter
            fun e => toLowerStr e.entity = lowKey g := by
  refine ⟨rfl, ?_⟩
  exact c9_grouped_entity_index
    [⟨strL "Apple", strL "ORG", 1, 0, 5⟩, ⟨strL "apple", strL "ORG", 1, 10, 15⟩,
      ⟨strL "Bob", strL "PER", 1, 20, 23⟩] (strL "ORG") _ rfl
